import Mathlib

/-!
lynqai-v1: response post-processing, token verification and chat turns

A shallow embedding of `src/app.js` and `src/authMiddleware.js`.

JavaScript strings are modelled as lists of characters (`Str`).  Every
character class used by the program (`.`, `!`, `?`, white space, line
terminators, the letters of `"Sam:"` and `"Bearer "`) lies in the Basic
Multilingual Plane, so a regular expression without the `u` flag never
starts or ends a match inside a surrogate pair and slicing by characters
agrees with slicing by UTF-16 code units.
-/

namespace Lynq

/-- A JavaScript string, as the list of its characters. -/
abbrev Str := List Char

/-! ## Character classes -/

/-- The class `[.!?]`. -/
def isTerminator (c : Char) : Bool :=
  c == '.' || c == '!' || c == '?'

/-- The class `[^.!?]`. -/
def notTerminator (c : Char) : Bool :=
  !isTerminator c

/-- JavaScript line terminators: LF, CR, U+2028, U+2029. -/
def isLineTerminator (c : Char) : Bool :=
  c.toNat == 0x0A || c.toNat == 0x0D || c.toNat == 0x2028 || c.toNat == 0x2029

/-- The class `\s`, which is also the set of characters `String.prototype.trim`
removes: ECMAScript WhiteSpace together with the line terminators. -/
def isWhiteSpace (c : Char) : Bool :=
  c.toNat == 0x09 || c.toNat == 0x0B || c.toNat == 0x0C || c.toNat == 0x20 ||
  c.toNat == 0xA0 || c.toNat == 0x1680 ||
  (0x2000 ≤ c.toNat && c.toNat ≤ 0x200A) ||
  c.toNat == 0x202F || c.toNat == 0x205F || c.toNat == 0x3000 || c.toNat == 0xFEFF ||
  isLineTerminator c

/-- The regular-expression atom `.` (no `s` flag): anything but a line terminator. -/
def isDot (c : Char) : Bool :=
  !isLineTerminator c

/-! ## A backtracking matcher for the regular expressions of the program -/

/-- The fragment of JavaScript regular expressions that the program uses. -/
inductive Regex where
  /-- A single character of a class, such as `[.!?]` or `\s`. -/
  | cls (p : Char → Bool)
  /-- Concatenation. -/
  | seq (a b : Regex)
  /-- Ordered alternation `a|b`. -/
  | alt (a b : Regex)
  /-- Greedy `c+` over a character class. -/
  | plus (p : Char → Bool)
  /-- Greedy `c*` over a character class. -/
  | star (p : Char → Bool)
  /-- The assertion `$` without the `m` flag: end of input. -/
  | eoi
  /-- Negative lookahead `(?!a)`. -/
  | notAhead (a : Regex)

/-- Greedy repetition of a class: consume as much as possible, then give back one
character at a time until the continuation `k` accepts. -/
def starK (p : Char → Bool) : Str → (Str → Option Str) → Option Str
  | [], k => k []
  | c :: cs, k =>
    if p c then
      match starK p cs k with
      | some r => some r
      | none => k (c :: cs)
    else k (c :: cs)

/-- Backtracking match of `re` at the start of the input, continuing with `k` on
the rest; the result is the input left over after the whole match. -/
def Regex.matchK : Regex → Str → (Str → Option Str) → Option Str
  | .cls p, s, k =>
    match s with
    | c :: cs => if p c then k cs else none
    | [] => none
  | .seq a b, s, k => a.matchK s (fun r => b.matchK r k)
  | .alt a b, s, k =>
    match a.matchK s k with
    | some r => some r
    | none => b.matchK s k
  | .plus p, s, k =>
    match s with
    | c :: cs => if p c then starK p cs k else none
    | [] => none
  | .star p, s, k => starK p s k
  | .eoi, s, k =>
    match s with
    | [] => k []
    | _ :: _ => none
  | .notAhead a, s, k =>
    match a.matchK s some with
    | some _ => none
    | none => k s

/-- Length of the match of `re` anchored at the start of `s`, if there is one. -/
def Regex.matchAt (re : Regex) (s : Str) : Option Nat :=
  (re.matchK s some).map (fun rest => s.length - rest.length)

/-- The call `re.exec(s)` for a regular expression without flags: the leftmost match, as
`(index, length)`. -/
def Regex.exec (re : Regex) : Str → Option (Nat × Nat)
  | [] => (re.matchAt []).map (fun n => (0, n))
  | c :: cs =>
    match re.matchAt (c :: cs) with
    | some n => some (0, n)
    | none => (re.exec cs).map (fun r => (r.1 + 1, r.2))

/-- Successive matches of a `g` regular expression over the input; `skip` counts the
characters of the input that still belong to the previous match.  After an empty
match the search resumes one character further, as `lastIndex` does. -/
def Regex.matchAllAux (re : Regex) : Str → Nat → List Str
  | [], skip =>
    match skip, re.matchAt [] with
    | 0, some _ => [[]]
    | _, _ => []
  | _ :: cs, skip + 1 => re.matchAllAux cs skip
  | c :: cs, 0 =>
    match re.matchAt (c :: cs) with
    | some n => (c :: cs).take n :: re.matchAllAux cs (n - 1)
    | none => re.matchAllAux cs 0

/-- The call `s.match(re) || []` for a regular expression with the `g` flag: all matched substrings. -/
def Regex.matchAll (re : Regex) (s : Str) : List Str :=
  re.matchAllAux s 0

/-- The call `s.split(re)` for a regular expression separator.  `cur` is the piece
being read (reversed), `skip` the characters left of the separator just matched.
An empty separator match at the start of a piece is ignored, elsewhere it cuts. -/
def Regex.splitAux (re : Regex) : Str → Str → Nat → List Str
  | [], cur, _ => [cur.reverse]
  | _ :: cs, cur, skip + 1 => re.splitAux cs cur skip
  | c :: cs, cur, 0 =>
    match re.matchAt (c :: cs) with
    | some (n + 1) => cur.reverse :: re.splitAux cs [] n
    | some 0 =>
      if cur.isEmpty then re.splitAux cs [c] 0
      else cur.reverse :: re.splitAux cs [c] 0
    | none => re.splitAux cs (c :: cur) 0

/-- The call `s.split(re)`.  The empty input gives `[""]` unless `re` matches it, then `[]`. -/
def Regex.split (re : Regex) (s : Str) : List Str :=
  match s with
  | [] => if (re.matchAt []).isSome then [] else [[]]
  | _ :: _ => re.splitAux s [] 0

/-! ## String operations of the JavaScript runtime -/

/-- The method `s.indexOf(pat)`: index of the first occurrence, or `-1`. -/
def indexOf (s pat : Str) : Int :=
  match s with
  | [] => if pat.isEmpty then 0 else -1
  | c :: cs =>
    if pat.isPrefixOf (c :: cs) then 0
    else
      let i := indexOf cs pat
      if i = -1 then -1 else i + 1

/-- The method `s.substring(start)`; a negative start counts as `0`. -/
def substring (s : Str) (start : Int) : Str :=
  s.drop start.toNat

/-- The method `s.slice(0, stop)` for a non-negative `stop`. -/
def sliceTo (s : Str) (stop : Nat) : Str :=
  s.take stop

/-- The method `s.trim()`. -/
def trim (s : Str) : Str :=
  ((s.dropWhile isWhiteSpace).reverse.dropWhile isWhiteSpace).reverse

/-- The method `xs.join(sep)`. -/
def join (sep : Str) : List Str → Str
  | [] => []
  | [x] => x
  | x :: y :: rest => x ++ sep ++ join sep (y :: rest)

/-- The call `s.split(sep)` for a non-empty string separator; `cur` is the piece being
read (reversed), `skip` the characters left of the separator just found. -/
def splitStrAux (sep : Str) : Str → Str → Nat → List Str
  | [], cur, _ => [cur.reverse]
  | _ :: cs, cur, skip + 1 => splitStrAux sep cs cur skip
  | c :: cs, cur, 0 =>
    if sep.isPrefixOf (c :: cs) then cur.reverse :: splitStrAux sep cs [] (sep.length - 1)
    else splitStrAux sep cs (c :: cur) 0

/-- The call `s.split(sep)` for a non-empty string separator. -/
def splitStr (sep : Str) (s : Str) : List Str :=
  splitStrAux sep s [] 0

/-! ## The post-processing steps of `/generate-text` (src/app.js) -/

/-- The pattern `/[^.!?]+[.!?]+/g` of `ensureCompleteResponse`. -/
def sentenceRe : Regex :=
  .seq (.plus notTerminator) (.plus isTerminator)

/-- The pattern `/\s+/` of `limitToWordCount`. -/
def whiteSpaceRe : Regex :=
  .plus isWhiteSpace

/-- The pattern `/[^.!?]+[.!?](?:\s|$)(?!.*[.!?])/` of the handler. -/
def lastSentenceRe : Regex :=
  .seq (.plus notTerminator)
    (.seq (.cls isTerminator)
      (.seq (.alt (.cls isWhiteSpace) .eoi)
        (.notAhead (.seq (.star isDot) (.cls isTerminator)))))

/-- Lines 65-68: keep what follows the first `"Sam:"`, trimmed, when there is one. -/
def extractSam (generatedText : Str) : Str :=
  let samIndex := indexOf generatedText "Sam:".toList
  if samIndex ≠ -1 then trim (substring generatedText (samIndex + 4))
  else generatedText

/-- Lines 156-159. -/
def ensureCompleteResponse (text : Str) : Str :=
  let sentences := sentenceRe.matchAll text
  trim (join " ".toList sentences)

/-- Lines 161-164. -/
def limitToWordCount (text : Str) (limit : Nat) : Str :=
  let words := whiteSpaceRe.split text
  join " ".toList (words.take limit)

/-- The expression `wordCount || 50`: an absent or zero word count becomes `50`. -/
def wordLimit : Option Nat → Nat
  | some (n + 1) => n + 1
  | _ => 50

/-- Lines 75-77: a truthy previous response is prepended. -/
def combinePrevious (previousResponse : Option Str) (generatedText : Str) : Str :=
  match previousResponse with
  | some (c :: cs) => (c :: cs) ++ generatedText
  | _ => generatedText

/-- Lines 80-83: cut after the match of `lastSentenceRe`, when there is one. -/
def truncateLastSentence (generatedText : Str) : Str :=
  match lastSentenceRe.exec generatedText with
  | some (index, len) => trim (sliceTo generatedText (index + len))
  | none => generatedText

/-- Line 85: `generatedText.split(' ').length >= wordCount`; a comparison with an
absent word count is false. -/
def isComplete (generatedText : Str) : Option Nat → Bool
  | some wordCount => decide ((splitStr " ".toList generatedText).length ≥ wordCount)
  | none => false

/-- Lines 62-72 of the handler: the text up to the word limit. -/
def limitedText (raw : Str) (wordCount : Option Nat) : Str :=
  let generatedText := extractSam raw
  let generatedText := ensureCompleteResponse generatedText
  limitToWordCount generatedText (wordLimit wordCount)

/-- Lines 62-83 of the handler: the text that is stored and returned.  The value of
`previousResponse` is an argument, since the file declares no such variable; the claims about
the post-processing steps take it to be absent. -/
def postProcess (previousResponse : Option Str) (raw : Str) (wordCount : Option Nat) : Str :=
  let generatedText := limitedText raw wordCount
  let generatedText := combinePrevious previousResponse generatedText
  truncateLastSentence generatedText

/-! ## Notions the specification uses to talk about texts -/

/-- Whitespace-delimited tokens: the maximal runs of characters that are not white space. -/
def tokens : Str → List Str
  | [] => []
  | c :: cs =>
    if isWhiteSpace c then tokens cs
    else
      match cs.head?.map isWhiteSpace, tokens cs with
      | some false, t :: ts => (c :: t) :: ts
      | _, ts => [c] :: ts

/-- Number of whitespace-delimited tokens of a text. -/
def tokenCount (s : Str) : Nat :=
  (tokens s).length

/-- A text contains a complete sentence: somewhere a character other than `.`, `!`, `?`
is directly followed by one of `.`, `!`, `?`. -/
def hasSentence : Str → Bool
  | a :: b :: rest => (notTerminator a && isTerminator b) || hasSentence (b :: rest)
  | _ => false

/-- A text ends with `.`, `!` or `?`. -/
def endsWithTerminator (s : Str) : Bool :=
  match s.getLast? with
  | some c => isTerminator c
  | none => false

/-- A text whose white space is single spaces: every white-space character is `' '` and is
not followed by another white-space character. -/
def singleSpaced : Str → Bool
  | [] => true
  | [a] => !isWhiteSpace a || a == ' '
  | a :: b :: rest =>
    (!isWhiteSpace a || (a == ' ' && !isWhiteSpace b)) && singleSpaced (b :: rest)

/-! ## The middleware `verifyToken` (src/authMiddleware.js) -/

/-- The decoded identity that `auth.verifyIdToken` resolves to. -/
structure DecodedToken where
  uid : String
deriving DecidableEq, Repr

/-- What one run of the middleware did: the tokens handed to `auth.verifyIdToken`, the
value left in `req.user`, whether `next()` was called, and the response sent, if any. -/
structure AuthResult where
  verifyCalls : List Str
  user : Option DecodedToken
  nextCalled : Bool
  response : Option (Nat × String)
deriving DecidableEq, Repr

/-- Line 4: `req.headers.authorization?.split('Bearer ')[1]`. -/
def extractToken (authorization : Option Str) : Option Str :=
  match authorization with
  | none => none
  | some header => (splitStr "Bearer ".toList header).get? 1

/-- Lines 3-15.  `verifyIdToken` is the identity provider: `none` stands for a rejected
promise.  An absent or empty token is falsy. -/
def verifyToken (authorization : Option Str) (verifyIdToken : Str → Option DecodedToken) :
    AuthResult :=
  match extractToken authorization with
  | none => ⟨[], none, false, some (401, "Unauthorized")⟩
  | some [] => ⟨[], none, false, some (401, "Unauthorized")⟩
  | some (c :: cs) =>
    match verifyIdToken (c :: cs) with
    | some decodedToken => ⟨[c :: cs], some decodedToken, true, none⟩
    | none => ⟨[c :: cs], none, false, some (401, "Unauthorized")⟩

/-! ## The conversation store -/

/-- A message of a conversation document. -/
structure Message where
  messageId : String
  sender : String
  text : Option Str
  imageURL : Option Str
  timestamp : Nat
deriving DecidableEq, Repr

/-- A document of the collection `conversations`. -/
structure Conversation where
  userId : String
  messages : List Message
  platform : String
  createdAt : Nat
  lastUpdated : Nat
deriving DecidableEq, Repr

/-- The collection `conversations`: document ids with their documents, in creation order. -/
abbrev Store := List (String × Conversation)

/-- The document stored under an id. -/
def Store.get (st : Store) (id : String) : Option Conversation :=
  (st.find? (fun d => d.1 == id)).map (fun d => d.2)

/-- Modelled from the spec: the document store (Firestore) is not part of the repository.
`createConversation` "always generates a new identifier": the store proposes `autoId`, and
creating a document under an identifier that is taken fails. -/
def Store.add (st : Store) (autoId : String) (doc : Conversation) : Except String (String × Store) :=
  match st.get autoId with
  | some _ => .error "ALREADY_EXISTS"
  | none => .ok (autoId, st ++ [(autoId, doc)])

/-- The transform `FieldValue.arrayUnion`: append the elements that are not present yet. -/
def arrayUnion (existing : List Message) (added : List Message) : List Message :=
  added.foldl (fun acc m => if m ∈ acc then acc else acc ++ [m]) existing

/-- Modelled from the spec: `appendMessages` "fails with `NotFound` if the conversation does
not exist; otherwise appends atomically and refreshes the last-updated timestamp". -/
def Store.update (st : Store) (id : String) (added : List Message) (now : Nat) :
    Except String Store :=
  match st.get id with
  | none => .error "NOT_FOUND"
  | some _ =>
    .ok (st.map (fun d =>
      if d.1 == id then
        (d.1, { d.2 with messages := arrayUnion d.2.messages added, lastUpdated := now })
      else d))

/-! ## The handlers of `/generate-text` and `/generate-image` (src/app.js) -/

/-- A rejected upstream call: `error.message`, and the HTTP status when a response came. -/
structure UpstreamError where
  message : String
  status : Option Nat
deriving DecidableEq, Repr

/-- Everything outside the process that one turn depends on: the hosted models, the
encoder of `Buffer`, `uuidv4()`, the clock, and the store (its proposed document id and
whether it is failing). -/
structure World where
  generateText : Str → Except UpstreamError Str
  generateImage : Str → Except UpstreamError (List Nat)
  base64 : List Nat → Str
  uuid1 : String
  uuid2 : String
  now : Nat
  autoId : String
  storeError : Option String

/-- How a free identifier of a handler resolves. -/
inductive Lookup (α : Type) where
  /-- No declaration is in scope: reading it throws a `ReferenceError`. -/
  | undeclared
  /-- A declaration is in scope, with this value. -/
  | bound (value : α)

/-- The free identifiers of the `/generate-text` handler. -/
structure Scope where
  previousResponse : Lookup (Option Str)
  prompt : Lookup (Option Str)

/-- The scope of src/app.js: neither `previousResponse` nor `prompt` is declared anywhere
the `/generate-text` handler can see. -/
def appScope : Scope :=
  ⟨.undeclared, .undeclared⟩

/-- The body of a `/generate-text` request. -/
structure TextRequest where
  systemMessage : Str
  userMessage : Str
  platform : String
  conversationId : Option String
  wordCount : Option Nat

/-- The body of a `/generate-image` request. -/
structure ImageRequest where
  prompt : Str
  platform : String
  conversationId : Option String

/-- The body of a response. -/
inductive Body where
  | text (generated_text : Str) (conversationId : String) (isComplete : Bool)
  | image (generated_image : Str) (conversationId : String)
  | error (error : String) (details : String)
deriving DecidableEq, Repr

/-- A response: `res.json(body)` has status 200, `res.status(500).json(body)` status 500. -/
structure Response where
  status : Nat
  body : Body
deriving DecidableEq, Repr

/-- A conversation id that is absent or empty is falsy. -/
def truthyId : Option String → Option String
  | some id => if id = "" then none else some id
  | none => none

/-- The prompt sent to the text model (line 49). -/
def textInputs (req : TextRequest) : Str :=
  req.systemMessage ++ "\n\n".toList ++ req.userMessage ++ "\n\nSam:".toList

/-- The prompt sent to the image model (line 173). -/
def imageInputs (req : ImageRequest) : Str :=
  "Generate a ".toList ++ req.platform.toList ++ " image: ".toList ++ req.prompt

/-- The store write shared by the two handlers (lines 91-133 and 188-228): update the
conversation under a truthy id, else add a new one.  Yields `conversationRef.id`. -/
def persistTurn (w : World) (user : DecodedToken) (platform : String)
    (conversationId : Option String) (userMsg assistantMsg : Message) (st : Store) :
    Except String (String × Store) :=
  match w.storeError with
  | some e => .error e
  | none =>
    match truthyId conversationId with
    | some id =>
      match st.update id [userMsg, assistantMsg] w.now with
      | .ok st1 => .ok (id, st1)
      | .error e => .error e
    | none =>
      st.add w.autoId
        { userId := user.uid, messages := [userMsg, assistantMsg], platform := platform,
          createdAt := w.now, lastUpdated := w.now }

/-- The `try` block of the `/generate-text` handler (lines 44-140): the response, or the
message of the error thrown, with the store after it. -/
def generateTextTry (scope : Scope) (w : World) (user : DecodedToken) (req : TextRequest)
    (st : Store) : Except String Response × Store :=
  match w.generateText (textInputs req) with
  | .error e => (.error e.message, st)
  | .ok raw =>
    match scope.previousResponse with
    | .undeclared => (.error "previousResponse is not defined", st)
    | .bound previousResponse =>
      let generatedText := postProcess previousResponse raw req.wordCount
      let complete := isComplete generatedText req.wordCount
      match scope.prompt with
      | .undeclared => (.error "prompt is not defined", st)
      | .bound prompt =>
        match persistTurn w user req.platform req.conversationId
            ⟨w.uuid1, "user", prompt, none, w.now⟩
            ⟨w.uuid2, "assistant", some generatedText, none, w.now⟩ st with
        | .error e => (.error e, st)
        | .ok (id, st1) => (.ok ⟨200, .text generatedText id complete⟩, st1)

/-- The `/generate-text` handler (lines 36-154), run after `verifyToken` called `next`. -/
def generateTextHandler (scope : Scope) (w : World) (user : DecodedToken) (req : TextRequest)
    (st : Store) : Response × Store :=
  match generateTextTry scope w user req st with
  | (.ok res, st1) => (res, st1)
  | (.error details, st1) => (⟨500, .error "Failed to generate text." details⟩, st1)

/-- Line 182: the data URI of the generated image, from its base64 encoding. -/
def imageUrl (base64Image : Str) : Str :=
  "data:image/jpeg;base64,".toList ++ base64Image

/-- The `try` block of the `/generate-image` handler (lines 170-230). -/
def generateImageTry (w : World) (user : DecodedToken) (req : ImageRequest) (st : Store) :
    Except String Response × Store :=
  match w.generateImage (imageInputs req) with
  | .error e => (.error e.message, st)
  | .ok data =>
    match persistTurn w user req.platform req.conversationId
        ⟨w.uuid1, "user", some req.prompt, none, w.now⟩
        ⟨w.uuid2, "assistant", none, some (imageUrl (w.base64 data)), w.now⟩ st with
    | .error e => (.error e, st)
    | .ok (id, st1) => (.ok ⟨200, .image (imageUrl (w.base64 data)) id⟩, st1)

/-- The `/generate-image` handler (lines 167-235), run after `verifyToken` called `next`. -/
def generateImageHandler (w : World) (user : DecodedToken) (req : ImageRequest) (st : Store) :
    Response × Store :=
  match generateImageTry w user req st with
  | (.ok res, st1) => (res, st1)
  | (.error details, st1) => (⟨500, .error "Failed to generate image." details⟩, st1)

/-- Whether `.*[.!?]` matches at the start of a text: a terminator comes before the first
line terminator.  This is what the lookahead of `lastSentenceRe` tests. -/
def terminatorAhead (s : Str) : Bool :=
  (s.takeWhile isDot).any isTerminator

/-- A well-formed Authorization header: the literal prefix `"Bearer "` and a non-empty token. -/
def wellFormedBearer (header : Str) : Bool :=
  "Bearer ".toList.isPrefixOf header && decide ("Bearer ".toList.length < header.length)

/-! ## Turns: the two generation endpoints side by side -/

/-- A generation turn: a `/generate-text` or a `/generate-image` request. -/
inductive Turn where
  | text (req : TextRequest)
  | image (req : ImageRequest)

/-- The conversation id a turn carries. -/
def Turn.conversationId : Turn → Option String
  | .text req => req.conversationId
  | .image req => req.conversationId

/-- The error of the upstream call of a turn, when that call fails. -/
def Turn.upstreamError (w : World) : Turn → Option UpstreamError
  | .text req =>
    match w.generateText (textInputs req) with
    | .error e => some e
    | .ok _ => none
  | .image req =>
    match w.generateImage (imageInputs req) with
    | .error e => some e
    | .ok _ => none

/-- The `error` field of the 500 response of each endpoint (lines 152 and 233). -/
def Turn.failureLabel : Turn → String
  | .text _ => "Failed to generate text."
  | .image _ => "Failed to generate image."

/-- The text of the user message a turn stores: `prompt`, as the handler resolves it. -/
def Turn.prompt (scope : Scope) : Turn → Option Str
  | .text _ =>
    match scope.prompt with
    | .bound value => value
    | .undeclared => none
  | .image req => some req.prompt

/-- Route a turn to its handler. -/
def runTurn (scope : Scope) (w : World) (user : DecodedToken) : Turn → Store → Response × Store
  | .text req, st => generateTextHandler scope w user req st
  | .image req, st => generateImageHandler w user req st

/-- The field `conversationId` of a response body. -/
def Body.conversationId : Body → Option String
  | .text _ id _ => some id
  | .image _ id => some id
  | .error _ _ => none

/-- The field `generated_text` of a response body. -/
def Body.generatedText : Body → Option Str
  | .text t _ _ => some t
  | _ => none

/-- The field `generated_image` of a response body. -/
def Body.generatedImage : Body → Option Str
  | .image url _ => some url
  | _ => none

/-- A world in which both models answer and the store works. -/
def calmWorld : World where
  generateText := fun _ => .ok "Sam: Hi there. More soon".toList
  generateImage := fun _ => .ok [255, 216]
  base64 := fun _ => "/9g=".toList
  uuid1 := "m-1"
  uuid2 := "m-2"
  now := 1700000000
  autoId := "conv-1"
  storeError := none

/-- A world in which both models answer with HTTP 503. -/
def stormWorld : World where
  generateText := fun _ => .error ⟨"Request failed with status code 503", some 503⟩
  generateImage := fun _ => .error ⟨"Request failed with status code 503", some 503⟩
  base64 := fun _ => []
  uuid1 := "m-1"
  uuid2 := "m-2"
  now := 1700000000
  autoId := "conv-1"
  storeError := none

/-! ## The handler of `/add-message` (src/app.js) -/

/-- The field `message` of an `/add-message` request. -/
structure MessageInput where
  sender : String
  text : Option Str
  imageURL : Option Str
deriving DecidableEq, Repr

/-- The body of an `/add-message` request; `message` may be missing. -/
structure AddMessageRequest where
  conversationId : String
  message : Option MessageInput
deriving DecidableEq, Repr

/-- Everything outside the process that one `/add-message` request depends on: whether the
store rejects the read (`doc(conversationId)` followed by `get()`) or the write (`update()`),
`uuidv4()`, and the two readings of the clock (lines 254 and 259). -/
structure AddMessageWorld where
  getError : Option String
  updateError : Option String
  uuid : String
  timestamp : Nat
  lastUpdated : Nat

/-- The body of a response of `/add-message`: `{ success: true, message }` or
`{ error }` with `details` on a 500. -/
inductive AddMessageBody where
  | success (message : String)
  | error (error : String) (details : Option String)
deriving DecidableEq, Repr

/-- A response of `/add-message`. -/
structure AddMessageResponse where
  status : Nat
  body : AddMessageBody
deriving DecidableEq, Repr

/-- The expression `message.text || ""`: an absent or empty text becomes `""`. -/
def textOrEmpty : Option Str → Str
  | some text => text
  | none => []

/-- The expression `message.imageURL || null`: an absent or empty URL becomes `null`. -/
def imageURLOrNull : Option Str → Option Str
  | some (c :: cs) => some (c :: cs)
  | _ => none

/-- Lines 249-255: the message that is appended. -/
def newMessage (w : AddMessageWorld) (message : MessageInput) : Message :=
  ⟨w.uuid, message.sender, some (textOrEmpty message.text), imageURLOrNull message.imageURL,
    w.timestamp⟩

/-- The `/add-message` handler (lines 238-267), run after `verifyToken` called `next`.  Reading
`message.sender` of a missing `message` throws a `TypeError`. -/
def addMessageHandler (w : AddMessageWorld) (req : AddMessageRequest) (st : Store) :
    AddMessageResponse × Store :=
  match w.getError with
  | some e => (⟨500, .error "Failed to add message" (some e)⟩, st)
  | none =>
    match st.get req.conversationId with
    | none => (⟨404, .error "Conversation not found" none⟩, st)
    | some _ =>
      match req.message with
      | none =>
        (⟨500, .error "Failed to add message"
          (some "Cannot read properties of undefined (reading \x27sender\x27)")⟩, st)
      | some message =>
        match w.updateError with
        | some e => (⟨500, .error "Failed to add message" (some e)⟩, st)
        | none =>
          match st.update req.conversationId [newMessage w message] w.lastUpdated with
          | .error e => (⟨500, .error "Failed to add message" (some e)⟩, st)
          | .ok st1 => (⟨200, .success "Message added successfully"⟩, st1)

/-- A store with one conversation, under the id `"conv-1"`. -/
def oneConversation : Store :=
  [("conv-1", ⟨"user-1", [], "Twitter", 1700000000, 1700000000⟩)]

/-- A world in which the store answers `/add-message`. -/
def addMessageWorld : AddMessageWorld where
  getError := none
  updateError := none
  uuid := "m-3"
  timestamp := 1700000100
  lastUpdated := 1700000101

/-! ## The client-side post-processing (src/frontend/src/AIAgent.js) -/

/-- A literal piece of a pattern: the characters of `s`, one after the other. -/
def Regex.lit : Str → Regex
  | [] => .star (fun _ => false)
  | [c] => .cls (fun x => x == c)
  | c :: d :: rest => .seq (.cls (fun x => x == c)) (Regex.lit (d :: rest))

/-- The pattern `/^(Sam:|As a professional Content Strategist for [^,]+,)/` of
`postProcessResponse`, without its anchor `^`. -/
def repeatedPromptRe : Regex :=
  .alt (Regex.lit "Sam:".toList)
    (.seq (Regex.lit "As a professional Content Strategist for ".toList)
      (.seq (.plus (fun x => x != ',')) (.cls (fun x => x == ','))))

/-- The pattern `/[.!?]$/` of `postProcessResponse`. -/
def endsProperlyRe : Regex :=
  .seq (.cls isTerminator) .eoi

/-- The call `s.replace(re, '')` for a pattern anchored by `^` (no `m`, no `g` flag): the
pattern can only match at index 0, and what it matches there is removed. -/
def removeAtStart (re : Regex) (s : Str) : Str :=
  match re.matchAt s with
  | some n => s.drop n
  | none => s

/-- The method `s.startsWith(pat)`. -/
def startsWith (s pat : Str) : Bool :=
  pat.isPrefixOf s

/-- The call `re.test(s)`. -/
def Regex.test (re : Regex) (s : Str) : Bool :=
  (re.exec s).isSome

/-- The literal `"Here's my advice:"`. -/
def adviceIntro : Str :=
  "Here\x27s my advice:".toList

/-- Lines 77-98 of AIAgent.js; `platform` is not used. -/
def postProcessResponse (response : Str) (_platform : String) : Str :=
  let response := trim (removeAtStart repeatedPromptRe response)
  let response :=
    if startsWith response adviceIntro then response
    else adviceIntro ++ " ".toList ++ response
  let words := whiteSpaceRe.split response
  let response :=
    if words.length > 50 then join " ".toList (words.take 50) ++ "...".toList
    else response
  let response :=
    if endsProperlyRe.test response then response
    else response ++ ".".toList
  response

/-! ## Lemmas: the regular expressions -/

theorem starK_of_reject (p : Char → Bool) (k : Str → Option Str)
    (hk : ∀ c cs, p c = true → k (c :: cs) = none) (s : Str) :
    starK p s k = k (s.dropWhile p) := by
  induction s with
  | nil => rfl
  | cons c cs ih =>
    by_cases hc : p c = true
    · simp only [starK, hc, if_true, List.dropWhile_cons_of_pos, ih]
      cases h : k (cs.dropWhile p) with
      | some r => rfl
      | none => simp [hk c cs hc]
    · simp [starK, hc, List.dropWhile_cons_of_neg]

theorem starK_some (p : Char → Bool) (s : Str) :
    starK p s some = some (s.dropWhile p) := by
  induction s with
  | nil => rfl
  | cons c cs ih =>
    by_cases hc : p c = true
    · simp [starK, hc, ih]
    · simp [starK, hc]

theorem plus_matchK_of_reject (p : Char → Bool) (k : Str → Option Str)
    (hk : ∀ c cs, p c = true → k (c :: cs) = none) (c : Char) (cs : Str) :
    (Regex.plus p).matchK (c :: cs) k = if p c then k (cs.dropWhile p) else none := by
  simp only [Regex.matchK, starK_of_reject p k hk]

theorem sentenceRe_matchK (c : Char) (cs : Str) :
    sentenceRe.matchK (c :: cs) some =
      if notTerminator c then
        match cs.dropWhile notTerminator with
        | d :: ds => if isTerminator d then some (ds.dropWhile isTerminator) else none
        | [] => none
      else none := by
  unfold sentenceRe
  rw [Regex.matchK, plus_matchK_of_reject]
  · by_cases hc : notTerminator c = true
    · simp only [hc, if_true]
      cases cs.dropWhile notTerminator with
      | nil => simp [Regex.matchK]
      | cons d ds => simp [Regex.matchK, starK_some]
    · simp [hc]
  · intro d ds hd
    simp only [notTerminator, Bool.not_eq_true'] at hd
    simp [Regex.matchK, hd]

theorem sentenceRe_matchK_nil : sentenceRe.matchK [] some = none := rfl

theorem isDot_of_isTerminator {c : Char} (h : isTerminator c = true) : isDot c = true := by
  simp only [isTerminator, Bool.or_eq_true, beq_iff_eq] at h
  rcases h with (h | h) | h <;> subst h <;> decide

theorem not_isWhiteSpace_of_isTerminator {c : Char} (h : isTerminator c = true) :
    isWhiteSpace c = false := by
  simp only [isTerminator, Bool.or_eq_true, beq_iff_eq] at h
  rcases h with (h | h) | h <;> subst h <;> decide

theorem ahead_matchK (s : Str) :
    ((Regex.seq (.star isDot) (.cls isTerminator)).matchK s some).isSome = terminatorAhead s := by
  simp only [Regex.matchK, terminatorAhead]
  induction s with
  | nil => simp [starK]
  | cons c cs ih =>
    by_cases hd : isDot c = true
    · simp only [starK, hd, if_true, List.takeWhile_cons_of_pos, List.any_cons]
      cases h : starK isDot cs (fun r => match r with
          | c :: cs => if isTerminator c = true then some cs else none
          | [] => none) with
      | some r =>
        rw [h] at ih
        simp [← ih]
      | none =>
        rw [h] at ih
        simp [← ih]
        by_cases ht : isTerminator c = true <;> simp [ht]
    · have ht : isTerminator c = false := by
        cases h : isTerminator c with
        | false => rfl
        | true => exact absurd (isDot_of_isTerminator h) hd
      simp [starK, hd, ht]

theorem lastSentenceRe_matchK (c : Char) (cs : Str) :
    lastSentenceRe.matchK (c :: cs) some =
      if notTerminator c then
        match cs.dropWhile notTerminator with
        | d :: ds =>
          if isTerminator d then
            match ds with
            | w :: r => if isWhiteSpace w then (if terminatorAhead r then none else some r) else none
            | [] => some []
          else none
        | [] => none
      else none := by
  unfold lastSentenceRe
  rw [Regex.matchK, plus_matchK_of_reject]
  · by_cases hc : notTerminator c = true
    · simp only [hc, if_true]
      cases cs.dropWhile notTerminator with
      | nil => simp [Regex.matchK]
      | cons d ds =>
        by_cases hd : isTerminator d = true
        · simp only [hd, if_true]
          cases ds with
          | nil => simp [Regex.matchK, hd, starK]
          | cons w r =>
            have ha := ahead_matchK r
            simp only [Regex.matchK] at ha
            by_cases hw : isWhiteSpace w = true
            · cases ht : terminatorAhead r with
              | true =>
                rw [ht] at ha
                obtain ⟨x, hx⟩ := Option.isSome_iff_exists.mp ha
                simp [Regex.matchK, hd, hw, hx, ht]
              | false =>
                rw [ht] at ha
                have hx := Option.not_isSome_iff_eq_none.mp (by simpa using ha)
                simp [Regex.matchK, hd, hw, hx, ht]
            · simp [Regex.matchK, hd, hw]
        · simp [Regex.matchK, hd]
    · simp [hc]
  · intro d ds hd
    simp only [notTerminator, Bool.not_eq_true'] at hd
    simp [Regex.matchK, hd]

theorem lastSentenceRe_matchK_nil : lastSentenceRe.matchK [] some = none := rfl

theorem whiteSpaceRe_matchK (c : Char) (cs : Str) :
    whiteSpaceRe.matchK (c :: cs) some =
      if isWhiteSpace c then some (cs.dropWhile isWhiteSpace) else none := by
  simp [whiteSpaceRe, Regex.matchK, starK_some]

theorem length_sub_length_dropWhile (p : Char → Bool) (s : Str) :
    s.length - (s.dropWhile p).length = (s.takeWhile p).length := by
  have h := congrArg List.length (List.takeWhile_append_dropWhile p s)
  simp only [List.length_append] at h
  omega

theorem drop_length_takeWhile (p : Char → Bool) (s : Str) :
    s.drop (s.takeWhile p).length = s.dropWhile p := by
  have h := List.drop_left (s.takeWhile p) (s.dropWhile p)
  rwa [List.takeWhile_append_dropWhile] at h

theorem whiteSpaceRe_matchAt (c : Char) (cs : Str) :
    whiteSpaceRe.matchAt (c :: cs) =
      if isWhiteSpace c then some ((cs.takeWhile isWhiteSpace).length + 1) else none := by
  unfold Regex.matchAt
  rw [whiteSpaceRe_matchK]
  by_cases hc : isWhiteSpace c = true
  · have h := length_sub_length_dropWhile isWhiteSpace cs
    have h2 : (cs.dropWhile isWhiteSpace).length ≤ cs.length :=
      (List.dropWhile_suffix isWhiteSpace).length_le
    simp only [hc, if_true, Option.map_some', List.length_cons, Option.some.injEq]
    omega
  · simp [hc]

theorem splitAux_skip (re : Regex) (s cur : Str) (n : Nat) :
    re.splitAux s cur n = re.splitAux (s.drop n) cur 0 := by
  induction s generalizing n with
  | nil => simp [Regex.splitAux]
  | cons c cs ih =>
    cases n with
    | zero => rfl
    | succ n => simp only [Regex.splitAux, List.drop_succ_cons, ih n]

theorem whiteSpaceRe_splitAux_cons (c : Char) (cs cur : Str) :
    whiteSpaceRe.splitAux (c :: cs) cur 0 =
      if isWhiteSpace c then cur.reverse :: whiteSpaceRe.splitAux (cs.dropWhile isWhiteSpace) [] 0
      else whiteSpaceRe.splitAux cs (c :: cur) 0 := by
  rw [Regex.splitAux, whiteSpaceRe_matchAt]
  by_cases hc : isWhiteSpace c = true
  · simp only [hc, if_true]
    rw [splitAux_skip, drop_length_takeWhile]
  · simp [hc]

theorem whiteSpaceRe_splitAux_nil (cur : Str) (n : Nat) :
    whiteSpaceRe.splitAux [] cur n = [cur.reverse] := by
  simp [Regex.splitAux]

theorem whiteSpaceRe_split_eq (s : Str) : whiteSpaceRe.split s = whiteSpaceRe.splitAux s [] 0 := by
  cases s with
  | nil => rfl
  | cons c cs => rfl

theorem whiteSpaceRe_splitAux_induction {P : Str → Str → Prop}
    (hnil : ∀ cur, P [] cur)
    (hws : ∀ c cs cur, isWhiteSpace c = true → P (cs.dropWhile isWhiteSpace) [] → P (c :: cs) cur)
    (hnon : ∀ c cs cur, isWhiteSpace c = false → P cs (c :: cur) → P (c :: cs) cur) :
    ∀ s cur, P s cur := by
  intro s
  generalize h : s.length = n
  induction n using Nat.strong_induction_on generalizing s with
  | _ n ih =>
    intro cur
    cases s with
    | nil => exact hnil cur
    | cons c cs =>
      cases hc : isWhiteSpace c with
      | true =>
        apply hws c cs cur hc
        have hl : (cs.dropWhile isWhiteSpace).length ≤ cs.length :=
          (List.dropWhile_suffix isWhiteSpace).length_le
        exact ih _ (by simp only [List.length_cons] at h; omega) _ rfl []
      | false =>
        apply hnon c cs cur hc
        exact ih _ (by simp only [List.length_cons] at h; omega) _ rfl (c :: cur)

/-- No piece of `split(/\s+/)` contains white space. -/
theorem splitAux_noWhiteSpace (s cur : Str) (hcur : ∀ x ∈ cur, isWhiteSpace x = false) :
    ∀ p ∈ whiteSpaceRe.splitAux s cur 0, ∀ x ∈ p, isWhiteSpace x = false := by
  revert hcur
  refine whiteSpaceRe_splitAux_induction (P := fun s cur =>
    (∀ x ∈ cur, isWhiteSpace x = false) →
      ∀ p ∈ whiteSpaceRe.splitAux s cur 0, ∀ x ∈ p, isWhiteSpace x = false) ?_ ?_ ?_ s cur
  · intro cur hcur p hp x hx
    simp only [whiteSpaceRe_splitAux_nil, List.mem_singleton] at hp
    subst hp
    exact hcur x (List.mem_reverse.mp hx)
  · intro c cs cur hc ih hcur p hp x hx
    rw [whiteSpaceRe_splitAux_cons] at hp
    simp only [hc, if_true, List.mem_cons] at hp
    rcases hp with hp | hp
    · subst hp
      exact hcur x (List.mem_reverse.mp hx)
    · exact ih (by simp) p hp x hx
  · intro c cs cur hc ih hcur p hp x hx
    rw [whiteSpaceRe_splitAux_cons] at hp
    simp only [hc, Bool.false_eq_true, if_false] at hp
    refine ih ?_ p hp x hx
    intro y hy
    rcases List.mem_cons.mp hy with hy | hy
    · subst hy; exact hc
    · exact hcur y hy

/-- The first piece of `split(/\s+/)` extends what has been read of it. -/
theorem splitAux_head (s cur : Str) :
    ∃ x rest, whiteSpaceRe.splitAux s cur 0 = (cur.reverse ++ x) :: rest := by
  refine whiteSpaceRe_splitAux_induction (P := fun s cur =>
    ∃ x rest, whiteSpaceRe.splitAux s cur 0 = (cur.reverse ++ x) :: rest) ?_ ?_ ?_ s cur
  · intro cur
    exact ⟨[], [], by simp [whiteSpaceRe_splitAux_nil]⟩
  · intro c cs cur hc _
    exact ⟨[], whiteSpaceRe.splitAux (cs.dropWhile isWhiteSpace) [] 0,
      by rw [whiteSpaceRe_splitAux_cons]; simp [hc]⟩
  · intro c cs cur hc ih
    obtain ⟨x, rest, h⟩ := ih
    exact ⟨c :: x, rest, by rw [whiteSpaceRe_splitAux_cons]; simp [hc, h]⟩

theorem join_cons_cons (sep p q : Str) (rest : List Str) :
    join sep (p :: q :: rest) = p ++ sep ++ join sep (q :: rest) := rfl

theorem join_singleton (sep p : Str) : join sep [p] = p := rfl

theorem join_head (sep p : Str) (rest : List Str) : ∃ t, join sep (p :: rest) = p ++ t := by
  cases rest with
  | nil => exact ⟨[], by simp [join]⟩
  | cons q rest => exact ⟨sep ++ join sep (q :: rest), by simp [join]⟩

/-- The last character of a joined list is that of its last piece, when that is not empty. -/
theorem join_getLast? (sep : Str) (ps : List Str) (d : Char)
    (h : ∃ p, ps.getLast? = some p ∧ p.getLast? = some d) :
    (join sep ps).getLast? = some d := by
  induction ps with
  | nil => simp at h
  | cons p rest ih =>
    cases rest with
    | nil =>
      obtain ⟨q, hq, hd⟩ := h
      simp only [List.getLast?_singleton, Option.some.injEq] at hq
      subst hq
      simpa [join] using hd
    | cons q rest =>
      have h2 : ∃ p, (q :: rest).getLast? = some p ∧ p.getLast? = some d := by
        obtain ⟨r, hr, hd⟩ := h
        exact ⟨r, by simpa [List.getLast?_cons_cons] using hr, hd⟩
      have ih2 := ih h2
      rw [join_cons_cons, List.getLast?_append, ih2]
      rfl

/-- A text that ends with a character that is not white space: its pieces joined end with it. -/
theorem splitAux_join_getLast? (s cur : Str) (d : Char) (hd : isWhiteSpace d = false)
    (h : (cur.reverse ++ s).getLast? = some d) :
    (join " ".toList (whiteSpaceRe.splitAux s cur 0)).getLast? = some d := by
  revert h
  refine whiteSpaceRe_splitAux_induction (P := fun s cur =>
    (cur.reverse ++ s).getLast? = some d →
      (join " ".toList (whiteSpaceRe.splitAux s cur 0)).getLast? = some d) ?_ ?_ ?_ s cur
  · intro cur h
    simpa [whiteSpaceRe_splitAux_nil, join] using h
  · intro c cs cur hc ih h
    rw [whiteSpaceRe_splitAux_cons]
    simp only [hc, if_true]
    have hcs : cs.getLast? = some d := by
      cases cs with
      | nil =>
        simp at h
        rw [h] at hc
        simp [hc] at hd
      | cons e es =>
        rw [List.getLast?_append] at h
        simpa [List.getLast?_cons_cons] using h
    have hdw : (cs.dropWhile isWhiteSpace).getLast? = some d := by
      have hmem : d ∈ cs := List.mem_of_getLast?_eq_some hcs
      have hne : cs.dropWhile isWhiteSpace ≠ [] := by
        intro hnil
        have := List.dropWhile_eq_nil_iff.mp hnil d hmem
        simp [hd] at this
      obtain ⟨t, ht⟩ := List.dropWhile_suffix (l := cs) isWhiteSpace
      rw [← ht, List.getLast?_append] at hcs
      cases hx : (cs.dropWhile isWhiteSpace).getLast? with
      | none => exact absurd (List.getLast?_eq_none_iff.mp hx) hne
      | some y => simpa [hx] using hcs
    have ih2 := ih (by simpa using hdw)
    obtain ⟨x, rest, hsplit⟩ := splitAux_head (cs.dropWhile isWhiteSpace) []
    rw [hsplit] at ih2 ⊢
    rw [join_cons_cons, List.getLast?_append, ih2]
    rfl
  · intro c cs cur hc ih h
    rw [whiteSpaceRe_splitAux_cons]
    simp only [hc, Bool.false_eq_true, if_false]
    exact ih (by simpa using h)

theorem dropWhile_getLast? (p : Char → Bool) (s : Str) (d : Char)
    (hs : s.getLast? = some d) (hd : p d = false) : (s.dropWhile p).getLast? = some d := by
  have hmem : d ∈ s := List.mem_of_getLast?_eq_some hs
  have hne : s.dropWhile p ≠ [] := by
    intro hnil
    have := List.dropWhile_eq_nil_iff.mp hnil d hmem
    simp [hd] at this
  obtain ⟨t, ht⟩ := List.dropWhile_suffix (l := s) p
  rw [← ht, List.getLast?_append] at hs
  cases hx : (s.dropWhile p).getLast? with
  | none => exact absurd (List.getLast?_eq_none_iff.mp hx) hne
  | some y => simpa [hx] using hs

/-- A text whose last character is not white space is only trimmed at the front. -/
theorem trim_of_getLast? (s : Str) (d : Char) (hs : s.getLast? = some d)
    (hd : isWhiteSpace d = false) : trim s = s.dropWhile isWhiteSpace := by
  have h := dropWhile_getLast? isWhiteSpace s d hs hd
  unfold trim
  have hr : (s.dropWhile isWhiteSpace).reverse.head? = some d := by
    rw [List.head?_reverse]; exact h
  cases hrev : (s.dropWhile isWhiteSpace).reverse with
  | nil => rw [hrev] at hr; simp at hr
  | cons x xs =>
    rw [hrev] at hr
    simp only [List.head?_cons, Option.some.injEq] at hr
    subst hr
    rw [List.dropWhile_cons_of_neg (by simp [hd]), ← hrev, List.reverse_reverse]

theorem trim_getLast? (s : Str) (d : Char) (hs : s.getLast? = some d)
    (hd : isWhiteSpace d = false) : (trim s).getLast? = some d := by
  rw [trim_of_getLast? s d hs hd]
  exact dropWhile_getLast? isWhiteSpace s d hs hd

theorem trim_initial (s : Str) : trim s <+: s.dropWhile isWhiteSpace := by
  have h := List.reverse_prefix.mpr
    (List.dropWhile_suffix (l := (s.dropWhile isWhiteSpace).reverse) isWhiteSpace)
  rwa [List.reverse_reverse] at h

/-- Trimming leaves a text that starts with a character that is not white space, or nothing. -/
theorem trim_head (s : Str) (c : Char) (t : Str) (h : trim s = c :: t) :
    isWhiteSpace c = false := by
  have hpre : (c :: t) <+: s.dropWhile isWhiteSpace := by
    rw [← h]
    exact trim_initial s
  obtain ⟨u, hu⟩ := hpre
  have hhead : (s.dropWhile isWhiteSpace).head? = some c := by rw [← hu]; rfl
  have := List.head?_dropWhile_not isWhiteSpace s
  rw [hhead] at this
  simpa using this

theorem trim_cons_of_not_ws (c : Char) (cs : Str) (hc : isWhiteSpace c = false) :
    ∃ t, trim (c :: cs) = c :: t := by
  unfold trim
  rw [List.dropWhile_cons_of_neg (by simp [hc]), List.reverse_cons, List.dropWhile_append]
  by_cases hnil : (cs.reverse.dropWhile isWhiteSpace).isEmpty = true
  · simp [hnil, hc]
  · simp only [hnil, Bool.false_eq_true, if_false, List.reverse_append, List.reverse_singleton,
      List.singleton_append]
    exact ⟨_, rfl⟩

/-- A trailing white-space character after a visible one does not change the trimmed text. -/
theorem trim_append_ws (y : Str) (d w : Char) (hd : isWhiteSpace d = false)
    (hw : isWhiteSpace w = true) : trim (y ++ [d, w]) = trim (y ++ [d]) := by
  have hlast : (y ++ [d]).getLast? = some d := by simp
  have hne : (y ++ [d]).dropWhile isWhiteSpace ≠ [] := by
    have := dropWhile_getLast? isWhiteSpace (y ++ [d]) d hlast hd
    intro hnil; rw [hnil] at this; simp at this
  have e1 : y ++ [d, w] = (y ++ [d]) ++ [w] := by simp
  have e2 : ((y ++ [d]) ++ [w]).dropWhile isWhiteSpace
      = (y ++ [d]).dropWhile isWhiteSpace ++ [w] := by
    rw [List.dropWhile_append]
    simp [hne]
  unfold trim
  rw [e1, e2, List.reverse_append, List.reverse_singleton, List.singleton_append,
    List.dropWhile_cons_of_pos hw]

theorem endsWithTerminator_iff (s : Str) :
    endsWithTerminator s = true ↔ ∃ d, s.getLast? = some d ∧ isTerminator d = true := by
  unfold endsWithTerminator
  cases h : s.getLast? with
  | none => simp
  | some c => simp

theorem take_length_sub (a b : Str) : (a ++ b).take ((a ++ b).length - b.length) = a := by
  have : (a ++ b).length - b.length = a.length := by simp
  rw [this, List.take_left]

/-- The shape of a match of `/[^.!?]+[.!?]+/` anchored at the start of a text. -/
theorem sentenceRe_matchAt_some (s : Str) (n : Nat) (h : sentenceRe.matchAt s = some n) :
    ∃ c tw d ts rest, s = (c :: tw) ++ (d :: ts) ++ rest ∧ s.take n = (c :: tw) ++ (d :: ts) ∧
      notTerminator c = true ∧ (∀ x ∈ tw, notTerminator x = true) ∧
      isTerminator d = true ∧ (∀ x ∈ ts, isTerminator x = true) := by
  cases s with
  | nil => simp [Regex.matchAt, sentenceRe_matchK_nil] at h
  | cons c cs =>
    unfold Regex.matchAt at h
    rw [sentenceRe_matchK] at h
    by_cases hc : notTerminator c = true
    · simp only [hc, if_true] at h
      cases hdw : cs.dropWhile notTerminator with
      | nil => simp [hdw] at h
      | cons d ds =>
        rw [hdw] at h
        by_cases hd : isTerminator d = true
        · simp only [hd, if_true, Option.map_some', Option.some.injEq] at h
          have hcs : cs = cs.takeWhile notTerminator ++ d :: ds := by
            rw [← hdw, List.takeWhile_append_dropWhile]
          have hds : ds = ds.takeWhile isTerminator ++ ds.dropWhile isTerminator :=
            (List.takeWhile_append_dropWhile _ _).symm
          have hs : c :: cs = ((c :: cs.takeWhile notTerminator) ++
              (d :: ds.takeWhile isTerminator)) ++ ds.dropWhile isTerminator := by
            conv_lhs => rw [hcs, hds]
            simp
          refine ⟨c, cs.takeWhile notTerminator, d, ds.takeWhile isTerminator,
            ds.dropWhile isTerminator, hs, ?_, hc, ?_, hd, ?_⟩
          · rw [← h]
            conv_lhs => rw [hs]
            exact take_length_sub _ _
          · intro x hx; exact List.mem_takeWhile_imp hx
          · intro x hx; exact List.mem_takeWhile_imp hx
        · simp [hd] at h
    · simp [hc] at h

theorem sentenceRe_matchAt_nil : sentenceRe.matchAt [] = none := rfl

/-- Every match of `/[^.!?]+[.!?]+/g` ends with a terminator. -/
theorem sentenceRe_matchAllAux_getLast? (s : Str) (k : Nat) :
    ∀ m ∈ sentenceRe.matchAllAux s k, ∃ d, m.getLast? = some d ∧ isTerminator d = true := by
  induction s generalizing k with
  | nil =>
    intro m hm
    cases k <;> simp [Regex.matchAllAux, sentenceRe_matchAt_nil] at hm
  | cons c cs ih =>
    intro m hm
    cases k with
    | succ k => exact ih k m (by simpa [Regex.matchAllAux] using hm)
    | zero =>
      rw [Regex.matchAllAux] at hm
      cases hma : sentenceRe.matchAt (c :: cs) with
      | none =>
        rw [hma] at hm
        exact ih 0 m hm
      | some n =>
        rw [hma] at hm
        rcases List.mem_cons.mp hm with hm | hm
        · obtain ⟨c', tw, d, ts, rest, _, htake, _, _, hd, hts⟩ :=
            sentenceRe_matchAt_some (c :: cs) n hma
          rw [hm, htake, List.getLast?_append]
          cases hl : (d :: ts).getLast? with
          | none => simp at hl
          | some e =>
            refine ⟨e, rfl, ?_⟩
            rcases List.mem_cons.mp (List.mem_of_getLast?_eq_some hl) with he | he
            · rw [he]; exact hd
            · exact hts e he
        · exact ih _ m hm

theorem hasSentence_cons (c : Char) (s : Str) (h : hasSentence s = true) :
    hasSentence (c :: s) = true := by
  cases s with
  | nil => simp [hasSentence] at h
  | cons b rest => simp [hasSentence, h]

theorem hasSentence_append_left (x s : Str) (h : hasSentence s = true) :
    hasSentence (x ++ s) = true := by
  induction x with
  | nil => exact h
  | cons c x ih => exact hasSentence_cons c _ ih

/-- A text in which a match of `/[^.!?]+[.!?]+/` starts contains a complete sentence. -/
theorem hasSentence_of_matchAt (s : Str) (n : Nat) (h : sentenceRe.matchAt s = some n) :
    hasSentence s = true := by
  obtain ⟨c, tw, d, ts, rest, hs, _, hc, htw, hd, _⟩ := sentenceRe_matchAt_some s n h
  have hlast : ∃ ini a, c :: tw = ini ++ [a] ∧ notTerminator a = true := by
    rcases List.eq_nil_or_concat tw with htw0 | ⟨ini, a, hini⟩
    · exact ⟨[], c, by simp [htw0], hc⟩
    · refine ⟨c :: ini, a, by simp [hini], htw a (by simp [hini])⟩
  obtain ⟨ini, a, hini, ha⟩ := hlast
  rw [hs, hini]
  have : ini ++ [a] ++ d :: ts ++ rest = ini ++ (a :: d :: (ts ++ rest)) := by simp
  rw [this]
  apply hasSentence_append_left
  simp [hasSentence, ha, hd]

theorem sentenceRe_matchAt_of_pair (a b : Char) (rest : Str) (ha : notTerminator a = true)
    (hb : isTerminator b = true) : ∃ n, sentenceRe.matchAt (a :: b :: rest) = some n := by
  unfold Regex.matchAt
  rw [sentenceRe_matchK]
  have hb2 : ¬ notTerminator b = true := by simp [notTerminator, hb]
  simp [ha, List.dropWhile_cons_of_neg hb2, hb]

/-- A text with a complete sentence has a match of `/[^.!?]+[.!?]+/g`. -/
theorem sentenceRe_matchAll_ne_nil (s : Str) (h : hasSentence s = true) :
    sentenceRe.matchAllAux s 0 ≠ [] := by
  induction s with
  | nil => simp [hasSentence] at h
  | cons a s ih =>
    rw [Regex.matchAllAux]
    cases hma : sentenceRe.matchAt (a :: s) with
    | some n => simp
    | none =>
      cases s with
      | nil => simp [hasSentence] at h
      | cons b rest =>
        simp only [hasSentence, Bool.or_eq_true, Bool.and_eq_true] at h
        rcases h with ⟨ha, hb⟩ | h
        · obtain ⟨n, hn⟩ := sentenceRe_matchAt_of_pair a b rest ha hb
          rw [hn] at hma; simp at hma
        · exact ih h

/-- A text without a complete sentence has no match of `/[^.!?]+[.!?]+/g`. -/
theorem sentenceRe_matchAll_eq_nil (s : Str) (k : Nat) (h : hasSentence s = false) :
    sentenceRe.matchAllAux s k = [] := by
  induction s generalizing k with
  | nil => cases k <;> simp [Regex.matchAllAux, sentenceRe_matchAt_nil]
  | cons a s ih =>
    have hs : hasSentence s = false := by
      cases hh : hasSentence s with
      | false => rfl
      | true => rw [hasSentence_cons a s hh] at h; simp at h
    cases k with
    | succ k => simpa [Regex.matchAllAux] using ih k hs
    | zero =>
      rw [Regex.matchAllAux]
      cases hma : sentenceRe.matchAt (a :: s) with
      | some n => rw [hasSentence_of_matchAt _ n hma] at h; simp at h
      | none => exact ih 0 hs

theorem exec_some (re : Regex) (s : Str) (i n : Nat) (h : re.exec s = some (i, n)) :
    re.matchAt (s.drop i) = some n := by
  induction s generalizing i with
  | nil =>
    simp only [Regex.exec, Option.map_eq_some'] at h
    obtain ⟨m, hm, he⟩ := h
    simp only [Prod.mk.injEq] at he
    obtain ⟨rfl, rfl⟩ := he
    simpa using hm
  | cons c cs ih =>
    rw [Regex.exec] at h
    cases hma : re.matchAt (c :: cs) with
    | some m =>
      rw [hma] at h
      simp only [Option.some.injEq, Prod.mk.injEq] at h
      obtain ⟨rfl, rfl⟩ := h
      simpa using hma
    | none =>
      rw [hma] at h
      simp only [Option.map_eq_some'] at h
      obtain ⟨⟨j, m⟩, hjm, he⟩ := h
      simp only [Prod.mk.injEq] at he
      obtain ⟨rfl, rfl⟩ := he
      simpa using ih j hjm

/-- The shape of a match of the last-sentence pattern anchored at the start of a text: a run
without terminators, one terminator, and a white-space character unless the text ends there. -/
theorem lastSentenceRe_matchAt_some (s : Str) (n : Nat) (h : lastSentenceRe.matchAt s = some n) :
    ∃ c tw d, isTerminator d = true ∧
      (s.take n = (c :: tw) ++ [d] ∨
        ∃ w, isWhiteSpace w = true ∧ s.take n = (c :: tw) ++ [d, w]) := by
  cases s with
  | nil => simp [Regex.matchAt, lastSentenceRe_matchK_nil] at h
  | cons c cs =>
    unfold Regex.matchAt at h
    rw [lastSentenceRe_matchK] at h
    by_cases hc : notTerminator c = true
    · simp only [hc, if_true] at h
      cases hdw : cs.dropWhile notTerminator with
      | nil => simp [hdw] at h
      | cons d ds =>
        rw [hdw] at h
        have hcs : cs = cs.takeWhile notTerminator ++ d :: ds := by
          rw [← hdw, List.takeWhile_append_dropWhile]
        by_cases hd : isTerminator d = true
        · simp only [hd, if_true] at h
          refine ⟨c, cs.takeWhile notTerminator, d, hd, ?_⟩
          cases ds with
          | nil =>
            left
            simp only [Option.map_some', Option.some.injEq, List.length_nil, Nat.sub_zero] at h
            rw [← h, List.take_length]
            conv_lhs => rw [hcs]
            simp
          | cons w r =>
            right
            by_cases hw : isWhiteSpace w = true
            · refine ⟨w, hw, ?_⟩
              cases hta : terminatorAhead r with
              | true => simp [hw, hta] at h
              | false =>
                simp only [hw, hta, if_true, Bool.false_eq_true, if_false, Option.map_some',
                  Option.some.injEq] at h
                have hs : c :: cs = ((c :: cs.takeWhile notTerminator) ++ [d, w]) ++ r := by
                  conv_lhs => rw [hcs]
                  simp
                rw [← h]
                conv_lhs => rw [hs]
                exact take_length_sub _ _
            · simp [hw] at h
        · simp [hd] at h
    · simp [hc] at h

theorem wordLimit_pos (wordCount : Option Nat) : 0 < wordLimit wordCount := by
  unfold wordLimit
  split <;> omega

/-- The sentence-completed text of a text with a complete sentence starts with a character
that is not white space and ends with a terminator. -/
theorem ensureCompleteResponse_of_hasSentence (text : Str) (h : hasSentence text = true) :
    ∃ c t d, ensureCompleteResponse text = c :: t ∧ isWhiteSpace c = false ∧
      (ensureCompleteResponse text).getLast? = some d ∧ isTerminator d = true := by
  have hne := sentenceRe_matchAll_ne_nil text h
  have hlast : ∃ p, (sentenceRe.matchAllAux text 0).getLast? = some p := by
    cases hl : (sentenceRe.matchAllAux text 0).getLast? with
    | none => exact absurd (List.getLast?_eq_none_iff.mp hl) hne
    | some p => exact ⟨p, rfl⟩
  obtain ⟨p, hp⟩ := hlast
  obtain ⟨d, hd, hT⟩ := sentenceRe_matchAllAux_getLast? text 0 p (List.mem_of_getLast?_eq_some hp)
  have hj := join_getLast? " ".toList (sentenceRe.matchAllAux text 0) d ⟨p, hp, hd⟩
  have ht := trim_getLast? _ d hj (not_isWhiteSpace_of_isTerminator hT)
  have hE : ensureCompleteResponse text = trim (join " ".toList (sentenceRe.matchAllAux text 0)) :=
    rfl
  rw [← hE] at ht
  cases hc : ensureCompleteResponse text with
  | nil => rw [hc] at ht; simp at ht
  | cons c t =>
    refine ⟨c, t, d, rfl, ?_, by rw [← hc]; exact ht, hT⟩
    exact trim_head _ c t (hE ▸ hc)

theorem ensureCompleteResponse_of_not_hasSentence (text : Str) (h : hasSentence text = false) :
    ensureCompleteResponse text = [] := by
  unfold ensureCompleteResponse Regex.matchAll
  rw [sentenceRe_matchAll_eq_nil text 0 h]
  rfl

/-- The word-limited version of a text that starts with a visible character starts with it. -/
theorem limitToWordCount_cons (c : Char) (t : Str) (limit : Nat) (hc : isWhiteSpace c = false)
    (hl : 0 < limit) : ∃ u, limitToWordCount (c :: t) limit = c :: u := by
  show ∃ u, join " ".toList ((whiteSpaceRe.split (c :: t)).take limit) = c :: u
  rw [whiteSpaceRe_split_eq, whiteSpaceRe_splitAux_cons]
  simp only [hc, Bool.false_eq_true, if_false]
  obtain ⟨x, rest, hx⟩ := splitAux_head t [c]
  rw [hx]
  obtain ⟨m, rfl⟩ : ∃ m, limit = m + 1 := ⟨limit - 1, by omega⟩
  rw [List.take_succ_cons]
  obtain ⟨u, hu⟩ := join_head " ".toList ([c].reverse ++ x) (rest.take m)
  rw [hu]
  exact ⟨x ++ u, by simp⟩

/-- A word limit that does not cut keeps the last character of a text that ends visibly. -/
theorem limitToWordCount_getLast? (text : Str) (limit : Nat) (d : Char)
    (hd : isWhiteSpace d = false) (h : text.getLast? = some d)
    (hl : (whiteSpaceRe.split text).length ≤ limit) :
    (limitToWordCount text limit).getLast? = some d := by
  show (join " ".toList ((whiteSpaceRe.split text).take limit)).getLast? = some d
  rw [List.take_of_length_le hl, whiteSpaceRe_split_eq]
  exact splitAux_join_getLast? text [] d hd (by simpa using h)

/-- Cutting after the last sentence keeps the first character of a text that starts visibly. -/
theorem truncateLastSentence_cons (c : Char) (t : Str) (hc : isWhiteSpace c = false) :
    ∃ u, truncateLastSentence (c :: t) = c :: u := by
  unfold truncateLastSentence
  cases he : lastSentenceRe.exec (c :: t) with
  | none => exact ⟨t, rfl⟩
  | some r =>
    obtain ⟨i, n⟩ := r
    have hm := exec_some _ _ i n he
    obtain ⟨c', tw, d, _, hshape⟩ := lastSentenceRe_matchAt_some _ n hm
    have hn : 0 < n := by
      rcases Nat.eq_zero_or_pos n with h0 | h0
      · subst h0
        rcases hshape with h1 | ⟨w, _, h1⟩ <;> simp at h1
      · exact h0
    obtain ⟨m, hm2⟩ : ∃ m, i + n = m + 1 := ⟨i + n - 1, by omega⟩
    simp only [sliceTo, hm2, List.take_succ_cons]
    exact trim_cons_of_not_ws c _ hc

/-- Cutting after the last sentence leaves a text that ends with a terminator, when the text
itself ends with one. -/
theorem truncateLastSentence_getLast? (s : Str) (d : Char) (h : s.getLast? = some d)
    (hd : isTerminator d = true) : endsWithTerminator (truncateLastSentence s) = true := by
  rw [endsWithTerminator_iff]
  unfold truncateLastSentence
  cases he : lastSentenceRe.exec s with
  | none => exact ⟨d, h, hd⟩
  | some r =>
    obtain ⟨i, n⟩ := r
    have hm := exec_some _ _ i n he
    obtain ⟨c', tw, e, heT, hshape⟩ := lastSentenceRe_matchAt_some _ n hm
    have hews := not_isWhiteSpace_of_isTerminator heT
    refine ⟨e, ?_, heT⟩
    simp only [sliceTo, List.take_add]
    rcases hshape with h1 | ⟨w, hw, h1⟩
    · rw [h1, ← List.append_assoc]
      exact trim_getLast? _ e (List.getLast?_concat _) hews
    · rw [h1]
      have e1 : s.take i ++ (c' :: tw ++ [e, w]) = (s.take i ++ c' :: tw) ++ [e, w] := by simp
      rw [e1, trim_append_ws _ e w hews hw]
      exact trim_getLast? _ e (List.getLast?_concat _) hews

/-- Where the last-sentence pattern matches, the cut ends the text with the terminator of the
match: the white space the match may end with is trimmed away. -/
theorem truncateLastSentence_of_exec (s : Str) (i n : Nat)
    (he : lastSentenceRe.exec s = some (i, n)) :
    endsWithTerminator (truncateLastSentence s) = true := by
  rw [endsWithTerminator_iff]
  unfold truncateLastSentence
  rw [he]
  have hm := exec_some _ _ i n he
  obtain ⟨c, tw, e, heT, hshape⟩ := lastSentenceRe_matchAt_some _ n hm
  have hews := not_isWhiteSpace_of_isTerminator heT
  refine ⟨e, ?_, heT⟩
  simp only [sliceTo, List.take_add]
  rcases hshape with h1 | ⟨w, hw, h1⟩
  · rw [h1, ← List.append_assoc]
    exact trim_getLast? _ e (List.getLast?_concat _) hews
  · rw [h1]
    have e1 : s.take i ++ (c :: tw ++ [e, w]) = (s.take i ++ c :: tw) ++ [e, w] := by simp
    rw [e1, trim_append_ws _ e w hews hw]
    exact trim_getLast? _ e (List.getLast?_concat _) hews

/-- Where the last-sentence pattern does not match, the text is kept as it is. -/
theorem truncateLastSentence_of_not_test (s : Str) (h : lastSentenceRe.test s = false) :
    truncateLastSentence s = s := by
  unfold Regex.test at h
  unfold truncateLastSentence
  cases he : lastSentenceRe.exec s with
  | none => rfl
  | some r => rw [he] at h; simp at h

/-- The text after the cut ends with a terminator exactly when the last-sentence pattern
matches the text or the text ends with a terminator already. -/
theorem endsWithTerminator_truncateLastSentence (s : Str) :
    endsWithTerminator (truncateLastSentence s) = true ↔
      lastSentenceRe.test s = true ∨ endsWithTerminator s = true := by
  cases he : lastSentenceRe.exec s with
  | some r =>
    have ht : lastSentenceRe.test s = true := by simp [Regex.test, he]
    simp [ht, truncateLastSentence_of_exec s r.1 r.2 he]
  | none =>
    have ht : lastSentenceRe.test s = false := by simp [Regex.test, he]
    rw [truncateLastSentence_of_not_test s ht, ht]
    simp

theorem tokens_cons_ws (c : Char) (cs : Str) (hc : isWhiteSpace c = true) :
    tokens (c :: cs) = tokens cs := by
  simp [tokens, hc]

theorem tokens_ne_nil_of_head (d : Char) (ds : Str) (hd : isWhiteSpace d = false) :
    tokens (d :: ds) ≠ [] := by
  simp only [tokens, hd, Bool.false_eq_true, if_false]
  split <;> simp

theorem tokens_cons_cons_not_ws (c d : Char) (ds : Str) (hc : isWhiteSpace c = false)
    (hd : isWhiteSpace d = false) :
    ∃ t ts, tokens (d :: ds) = t :: ts ∧ tokens (c :: d :: ds) = (c :: t) :: ts := by
  cases h : tokens (d :: ds) with
  | nil => exact absurd h (tokens_ne_nil_of_head d ds hd)
  | cons t ts =>
    refine ⟨t, ts, rfl, ?_⟩
    rw [tokens]
    simp [hc, hd, h]

theorem tokens_cons_not_ws_ws (c d : Char) (ds : Str) (hc : isWhiteSpace c = false)
    (hd : isWhiteSpace d = true) : tokens (c :: d :: ds) = [c] :: tokens ds := by
  rw [tokens]
  simp [hc, hd, tokens_cons_ws d ds hd]

theorem tokens_singleton (c : Char) (hc : isWhiteSpace c = false) : tokens [c] = [[c]] := by
  simp [tokens, hc]

/-- The tokens of a visible run followed by white space: the run, then the tokens of the rest. -/
theorem tokens_append_ws (x : Str) (w : Char) (r : Str) (hx : ∀ a ∈ x, isWhiteSpace a = false)
    (hw : isWhiteSpace w = true) :
    tokens (x ++ w :: r) = (if x = [] then [] else [x]) ++ tokens r := by
  induction x with
  | nil => simp [tokens_cons_ws w r hw]
  | cons c x ih =>
    have hc := hx c (List.mem_cons_self c x)
    have hx2 : ∀ a ∈ x, isWhiteSpace a = false := fun a ha => hx a (List.mem_cons_of_mem c ha)
    have ih2 := ih hx2
    cases x with
    | nil => simp [tokens_cons_not_ws_ws c w r hc hw]
    | cons d x =>
      have hd := hx2 d (List.mem_cons_self d x)
      obtain ⟨t, ts, h1, h2⟩ := tokens_cons_cons_not_ws c d (x ++ w :: r) hc hd
      simp only [List.cons_append] at ih2 h1 h2 ⊢
      rw [h2]
      rw [h1] at ih2
      simp only [reduceCtorEq, if_false, List.singleton_append, List.cons.injEq] at ih2
      obtain ⟨rfl, rfl⟩ := ih2
      simp

/-- A visible run is its own single token. -/
theorem tokens_of_noWhiteSpace (x : Str) (hx : ∀ a ∈ x, isWhiteSpace a = false) :
    tokens x = if x = [] then [] else [x] := by
  induction x with
  | nil => rfl
  | cons c x ih =>
    have hc := hx c (List.mem_cons_self c x)
    have hx2 : ∀ a ∈ x, isWhiteSpace a = false := fun a ha => hx a (List.mem_cons_of_mem c ha)
    have ih2 := ih hx2
    cases x with
    | nil => simp [tokens_singleton c hc]
    | cons d x =>
      have hd := hx2 d (List.mem_cons_self d x)
      obtain ⟨t, ts, h1, h2⟩ := tokens_cons_cons_not_ws c d x hc hd
      rw [h2]
      rw [h1] at ih2
      simp only [reduceCtorEq, if_false, List.cons.injEq] at ih2
      obtain ⟨rfl, rfl⟩ := ih2
      simp

theorem tokens_dropWhile (s : Str) : tokens (s.dropWhile isWhiteSpace) = tokens s := by
  induction s with
  | nil => rfl
  | cons c cs ih =>
    by_cases hc : isWhiteSpace c = true
    · rw [List.dropWhile_cons_of_pos hc, ih, tokens_cons_ws c cs hc]
    · rw [List.dropWhile_cons_of_neg hc]

/-- Joining visible pieces with single spaces gives as tokens the pieces that are not empty. -/
theorem tokens_join (ps : List Str) (hps : ∀ p ∈ ps, ∀ a ∈ p, isWhiteSpace a = false) :
    tokens (join " ".toList ps) = ps.filter (fun p => !p.isEmpty) := by
  induction ps with
  | nil => rfl
  | cons p rest ih =>
    have hp := hps p (List.mem_cons_self p rest)
    have ih2 := ih (fun q hq => hps q (List.mem_cons_of_mem p hq))
    cases rest with
    | nil =>
      rw [join_singleton, tokens_of_noWhiteSpace p hp]
      cases p <;> simp
    | cons q rest =>
      rw [join_cons_cons]
      have : p ++ " ".toList ++ join " ".toList (q :: rest)
          = p ++ ' ' :: join " ".toList (q :: rest) := by simp
      rw [this, tokens_append_ws p ' ' _ hp (by decide), ih2]
      cases p <;> simp

theorem tokenCount_join_le (ps : List Str) (hps : ∀ p ∈ ps, ∀ a ∈ p, isWhiteSpace a = false) :
    tokenCount (join " ".toList ps) ≤ ps.length := by
  unfold tokenCount
  rw [tokens_join ps hps]
  exact List.length_filter_le _ _

/-- A prefix of a text has at most as many tokens as the text. -/
theorem tokenCount_le_of_initial (l1 l2 : Str) (h : l1 <+: l2) : tokenCount l1 ≤ tokenCount l2 := by
  induction l2 generalizing l1 with
  | nil =>
    rw [List.prefix_nil.mp h]
  | cons c l2 ih =>
    cases l1 with
    | nil => simp [tokenCount, tokens]
    | cons c1 l1 =>
      obtain ⟨rfl, h2⟩ := List.cons_prefix_cons.mp h
      have ih2 := ih l1 h2
      unfold tokenCount at ih2 ⊢
      cases hc : isWhiteSpace c1 with
      | true => rw [tokens_cons_ws c1 l1 hc, tokens_cons_ws c1 l2 hc]; exact ih2
      | false =>
        cases l1 with
        | nil =>
          rw [tokens_singleton c1 hc]
          have := tokens_ne_nil_of_head c1 l2 hc
          exact Nat.pos_of_ne_zero (fun h0 => this (List.length_eq_zero.mp h0))
        | cons d l1 =>
          cases l2 with
          | nil => simp at h2
          | cons d2 l2 =>
            obtain ⟨rfl, h3⟩ := List.cons_prefix_cons.mp h2
            cases hd : isWhiteSpace d with
            | true =>
              rw [tokens_cons_not_ws_ws c1 d l1 hc hd, tokens_cons_not_ws_ws c1 d l2 hc hd]
              rw [tokens_cons_ws d l1 hd, tokens_cons_ws d l2 hd] at ih2
              simpa using ih2
            | false =>
              obtain ⟨t, ts, h1, h1'⟩ := tokens_cons_cons_not_ws c1 d l1 hc hd
              obtain ⟨u, us, h4, h4'⟩ := tokens_cons_cons_not_ws c1 d l2 hc hd
              rw [h1', h4']
              rw [h1, h4] at ih2
              simpa using ih2

theorem tokenCount_trim_le (s : Str) : tokenCount (trim s) ≤ tokenCount s := by
  have h := tokenCount_le_of_initial _ _ (trim_initial s)
  unfold tokenCount at h ⊢
  rwa [tokens_dropWhile] at h

theorem tokenCount_truncateLastSentence_le (s : Str) :
    tokenCount (truncateLastSentence s) ≤ tokenCount s := by
  unfold truncateLastSentence
  cases lastSentenceRe.exec s with
  | none => exact Nat.le_refl _
  | some r =>
    obtain ⟨i, n⟩ := r
    exact Nat.le_trans (tokenCount_trim_le _) (tokenCount_le_of_initial _ _ (List.take_prefix _ _))

theorem tokenCount_limitToWordCount_le (text : Str) (limit : Nat) :
    tokenCount (limitToWordCount text limit) ≤ limit := by
  show tokenCount (join " ".toList ((whiteSpaceRe.split text).take limit)) ≤ limit
  refine Nat.le_trans (tokenCount_join_le _ ?_) (by simp [List.length_take])
  intro p hp a ha
  rw [whiteSpaceRe_split_eq] at hp
  exact splitAux_noWhiteSpace text [] (by simp) p (List.mem_of_mem_take hp) a ha

/-- On a text that starts and ends with visible characters, `split(/\s+/)` yields the
whitespace-delimited tokens. -/
theorem splitAux_eq_tokens (s cur : Str) (hcur : ∀ a ∈ cur, isWhiteSpace a = false)
    (hhead : ∃ a, (cur.reverse ++ s).head? = some a ∧ isWhiteSpace a = false)
    (hlast : ∃ d, (cur.reverse ++ s).getLast? = some d ∧ isWhiteSpace d = false) :
    whiteSpaceRe.splitAux s cur 0 = tokens (cur.reverse ++ s) := by
  revert hcur hhead hlast
  refine whiteSpaceRe_splitAux_induction (P := fun s cur =>
    (∀ a ∈ cur, isWhiteSpace a = false) →
    (∃ a, (cur.reverse ++ s).head? = some a ∧ isWhiteSpace a = false) →
    (∃ d, (cur.reverse ++ s).getLast? = some d ∧ isWhiteSpace d = false) →
      whiteSpaceRe.splitAux s cur 0 = tokens (cur.reverse ++ s)) ?_ ?_ ?_ s cur
  · intro cur hcur hhead _
    have hne : cur.reverse ≠ [] := by
      obtain ⟨a, ha, _⟩ := hhead
      intro h0; simp [h0] at ha
    rw [whiteSpaceRe_splitAux_nil, List.append_nil, tokens_of_noWhiteSpace,
      if_neg hne]
    intro a ha
    exact hcur a (List.mem_reverse.mp ha)
  · intro c cs cur hc ih hcur hhead hlast
    have hne : cur.reverse ≠ [] := by
      obtain ⟨a, ha, haw⟩ := hhead
      intro h0
      simp only [h0, List.nil_append, List.head?_cons, Option.some.injEq] at ha
      rw [← ha, hc] at haw
      simp at haw
    obtain ⟨d, hd, hdw⟩ := hlast
    have hcs : cs.getLast? = some d := by
      rw [List.getLast?_append] at hd
      cases cs with
      | nil =>
        simp only [List.getLast?_singleton, Option.or_some, Option.some.injEq] at hd
        rw [← hd, hc] at hdw
        simp at hdw
      | cons e es => simpa [List.getLast?_cons_cons] using hd
    have hdl := dropWhile_getLast? isWhiteSpace cs d hcs hdw
    have hdh : ∃ a, ([].reverse ++ cs.dropWhile isWhiteSpace).head? = some a ∧
        isWhiteSpace a = false := by
      cases hx : cs.dropWhile isWhiteSpace with
      | nil => rw [hx] at hdl; simp at hdl
      | cons a t =>
        refine ⟨a, rfl, ?_⟩
        have := List.head?_dropWhile_not isWhiteSpace cs
        rw [hx] at this
        simpa using this
    have ih2 := ih (by simp) hdh ⟨d, by simpa using hdl, hdw⟩
    rw [whiteSpaceRe_splitAux_cons]
    simp only [hc, if_true]
    rw [ih2, tokens_append_ws _ c cs (fun a ha => hcur a (List.mem_reverse.mp ha)) hc,
      if_neg hne]
    simp [tokens_dropWhile]
  · intro c cs cur hc ih hcur hhead hlast
    rw [whiteSpaceRe_splitAux_cons]
    simp only [hc, Bool.false_eq_true, if_false]
    have e : (c :: cur).reverse ++ cs = cur.reverse ++ c :: cs := by simp
    rw [ih ?_ ?_ ?_, e]
    · intro a ha
      rcases List.mem_cons.mp ha with ha | ha
      · subst ha; exact hc
      · exact hcur a ha
    · rw [e]; exact hhead
    · rw [e]; exact hlast

/-- The sentence-completed text of a text with a complete sentence splits into its tokens. -/
theorem split_ensureCompleteResponse (text : Str) (h : hasSentence text = true) :
    whiteSpaceRe.split (ensureCompleteResponse text) = tokens (ensureCompleteResponse text) := by
  obtain ⟨c, t, d, hE, hc, hl, hd⟩ := ensureCompleteResponse_of_hasSentence text h
  rw [whiteSpaceRe_split_eq]
  have := splitAux_eq_tokens (ensureCompleteResponse text) [] (by simp)
    ⟨c, by simp [hE], hc⟩ ⟨d, by simpa using hl, not_isWhiteSpace_of_isTerminator hd⟩
  simpa using this

/-! ## Lemmas: the post-processed text -/

theorem limitToWordCount_nil (limit : Nat) : limitToWordCount [] limit = [] := by
  cases limit with
  | zero => rfl
  | succ n =>
    show join " ".toList ((whiteSpaceRe.split []).take (n + 1)) = []
    have h : whiteSpaceRe.split [] = [[]] := rfl
    rw [h, List.take_succ_cons, List.take_nil]
    rfl

/-- Without a complete sentence after the `"Sam:"` extraction the post-processed text is empty. -/
theorem postProcess_eq_nil_of_not_hasSentence (raw : Str) (wordCount : Option Nat)
    (hs : hasSentence (extractSam raw) = false) : postProcess none raw wordCount = [] := by
  simp only [postProcess, limitedText, combinePrevious,
    ensureCompleteResponse_of_not_hasSentence _ hs, limitToWordCount_nil]
  rfl

/-- With a complete sentence after the `"Sam:"` extraction the post-processed text starts with
a visible character. -/
theorem postProcess_cons_of_hasSentence (raw : Str) (wordCount : Option Nat)
    (hs : hasSentence (extractSam raw) = true) :
    ∃ c v, postProcess none raw wordCount = c :: v ∧ isWhiteSpace c = false := by
  obtain ⟨c, t, _, hE, hc, _, _⟩ := ensureCompleteResponse_of_hasSentence _ hs
  obtain ⟨u, hu⟩ := limitToWordCount_cons c t (wordLimit wordCount) hc (wordLimit_pos wordCount)
  obtain ⟨v, hv⟩ := truncateLastSentence_cons c u hc
  exact ⟨c, v, by simp only [postProcess, limitedText, combinePrevious, hE, hu, hv], hc⟩

theorem singleSpaced_tail (a : Char) (s : Str) (h : singleSpaced (a :: s) = true) :
    singleSpaced s = true := by
  cases s with
  | nil => rfl
  | cons b rest =>
    simp only [singleSpaced, Bool.and_eq_true] at h
    exact h.2

theorem singleSpaced_of_initial (l1 l2 : Str) (hp : l1 <+: l2) (h : singleSpaced l2 = true) :
    singleSpaced l1 = true := by
  induction l2 generalizing l1 with
  | nil => rw [List.prefix_nil.mp hp]; rfl
  | cons a l2 ih =>
    cases l1 with
    | nil => rfl
    | cons a1 l1 =>
      obtain ⟨rfl, hp2⟩ := List.cons_prefix_cons.mp hp
      have ih2 := ih l1 hp2 (singleSpaced_tail a1 l2 h)
      cases l1 with
      | nil =>
        cases l2 with
        | nil => exact h
        | cons b l2 =>
          simp only [singleSpaced, Bool.and_eq_true, Bool.or_eq_true] at h ⊢
          rcases h.1 with h1 | h1
          · exact Or.inl h1
          · exact Or.inr h1.1
      | cons b l1 =>
        cases l2 with
        | nil => simp at hp2
        | cons b2 l2 =>
          obtain ⟨rfl, _⟩ := List.cons_prefix_cons.mp hp2
          simp only [singleSpaced, Bool.and_eq_true] at h ⊢
          exact ⟨h.1, by simpa [singleSpaced] using ih2⟩

theorem singleSpaced_of_noWhiteSpace (p : Str) (hp : ∀ a ∈ p, isWhiteSpace a = false) :
    singleSpaced p = true := by
  induction p with
  | nil => rfl
  | cons a p ih =>
    have ha := hp a (List.mem_cons_self a p)
    have ih2 := ih (fun x hx => hp x (List.mem_cons_of_mem a hx))
    cases p with
    | nil => simp [singleSpaced, ha]
    | cons b p => simp [singleSpaced, ha, ih2]

/-- A visible run, a space, then a single-spaced text that starts visibly: single-spaced. -/
theorem singleSpaced_append_space (p : Str) (c : Char) (t : Str)
    (hp : ∀ a ∈ p, isWhiteSpace a = false) (hc : isWhiteSpace c = false)
    (ht : singleSpaced (c :: t) = true) : singleSpaced (p ++ ' ' :: c :: t) = true := by
  induction p with
  | nil => simp [singleSpaced, hc, ht]
  | cons a p ih =>
    have ha := hp a (List.mem_cons_self a p)
    have ih2 := ih (fun x hx => hp x (List.mem_cons_of_mem a hx))
    cases p with
    | nil =>
      simp only [List.nil_append] at ih2
      simp [singleSpaced, ha, hc, ht]
    | cons b p =>
      simp only [List.cons_append] at ih2 ⊢
      simp [singleSpaced, ha, ih2]

/-- Visible, non-empty pieces joined with single spaces: single-spaced. -/
theorem singleSpaced_join (ps : List Str) (hps : ∀ p ∈ ps, ∀ a ∈ p, isWhiteSpace a = false)
    (hne : ∀ p ∈ ps, p ≠ []) : singleSpaced (join " ".toList ps) = true := by
  induction ps with
  | nil => rfl
  | cons p rest ih =>
    have hp := hps p (List.mem_cons_self p rest)
    have ih2 := ih (fun q hq => hps q (List.mem_cons_of_mem p hq))
      (fun q hq => hne q (List.mem_cons_of_mem p hq))
    cases rest with
    | nil => exact singleSpaced_of_noWhiteSpace p hp
    | cons q rest =>
      rw [join_cons_cons]
      obtain ⟨t, ht⟩ := join_head " ".toList q rest
      cases hq : q with
      | nil => exact absurd hq (hne q (by simp))
      | cons c q2 =>
        rw [hq] at ht ih2
        rw [ht] at ih2 ⊢
        have hc : isWhiteSpace c = false := hps q (by simp) c (by simp [hq])
        have : p ++ " ".toList ++ (c :: q2 ++ t) = p ++ ' ' :: c :: (q2 ++ t) := by simp
        rw [this]
        exact singleSpaced_append_space p c (q2 ++ t) hp hc (by simpa using ih2)

/-- On a single-spaced text that starts and ends visibly, `split(' ')` yields the tokens. -/
theorem splitStrAux_eq_tokens (s cur : Str) (hcur : ∀ a ∈ cur, isWhiteSpace a = false)
    (hhead : ∃ a, (cur.reverse ++ s).head? = some a ∧ isWhiteSpace a = false)
    (hlast : ∃ d, (cur.reverse ++ s).getLast? = some d ∧ isWhiteSpace d = false)
    (hs : singleSpaced s = true) :
    splitStrAux " ".toList s cur 0 = tokens (cur.reverse ++ s) := by
  induction s generalizing cur with
  | nil =>
    have hne : cur.reverse ≠ [] := by
      obtain ⟨a, ha, _⟩ := hhead
      intro h0; simp [h0] at ha
    rw [splitStrAux, List.append_nil, tokens_of_noWhiteSpace _
      (fun a ha => hcur a (List.mem_reverse.mp ha)), if_neg hne]
  | cons c cs ih =>
    cases hc : isWhiteSpace c with
    | true =>
      have hne : cur.reverse ≠ [] := by
        obtain ⟨a, ha, haw⟩ := hhead
        intro h0
        simp only [h0, List.nil_append, List.head?_cons, Option.some.injEq] at ha
        rw [← ha, hc] at haw
        simp at haw
      obtain ⟨d, hd, hdw⟩ := hlast
      cases cs with
      | nil =>
        rw [List.getLast?_append] at hd
        simp only [List.getLast?_singleton, Option.or_some, Option.some.injEq] at hd
        rw [← hd, hc] at hdw
        simp at hdw
      | cons b cs =>
        simp only [singleSpaced, hc, Bool.not_true, Bool.false_or, Bool.and_eq_true,
          beq_iff_eq, Bool.not_eq_true'] at hs
        obtain ⟨⟨rfl, hb⟩, hs2⟩ := hs
        have hlast2 : (b :: cs).getLast? = some d := by
          rw [List.getLast?_append] at hd
          simpa [List.getLast?_cons_cons] using hd
        have ih2 := ih [] (by simp) ⟨b, rfl, hb⟩ ⟨d, by simpa using hlast2, hdw⟩ hs2
        rw [splitStrAux]
        have hpre : List.isPrefixOf " ".toList (' ' :: b :: cs) = true := by
          simp [List.isPrefixOf]
        simp only [hpre, if_true]
        have hlen : " ".toList.length - 1 = 0 := rfl
        rw [hlen, ih2, tokens_append_ws _ ' ' (b :: cs)
          (fun a ha => hcur a (List.mem_reverse.mp ha)) hc, if_neg hne]
        simp
    | false =>
      have hpre : List.isPrefixOf " ".toList (c :: cs) = false := by
        have hne : ¬ (' ' = c) := by
          intro h0
          rw [← h0] at hc
          exact absurd hc (by decide)
        simp [List.isPrefixOf, hne]
      rw [splitStrAux]
      simp only [hpre, Bool.false_eq_true, if_false]
      have e : (c :: cur).reverse ++ cs = cur.reverse ++ c :: cs := by simp
      rw [ih (c :: cur) ?_ ?_ ?_ (singleSpaced_tail c cs hs), e]
      · intro a ha
        rcases List.mem_cons.mp ha with ha | ha
        · subst ha; exact hc
        · exact hcur a ha
      · rw [e]; exact hhead
      · rw [e]; exact hlast

theorem tokens_ne_nil (s : Str) : ∀ t ∈ tokens s, t ≠ [] := by
  induction s with
  | nil => intro t ht; simp [tokens] at ht
  | cons c cs ih =>
    intro t ht
    cases hc : isWhiteSpace c with
    | true => rw [tokens_cons_ws c cs hc] at ht; exact ih t ht
    | false =>
      cases cs with
      | nil =>
        rw [tokens_singleton c hc] at ht
        simp only [List.mem_singleton] at ht
        subst ht; simp
      | cons d ds =>
        cases hd : isWhiteSpace d with
        | true =>
          rw [tokens_cons_not_ws_ws c d ds hc hd] at ht
          rcases List.mem_cons.mp ht with ht | ht
          · subst ht; simp
          · exact ih t (by rw [tokens_cons_ws d ds hd]; exact ht)
        | false =>
          obtain ⟨u, us, h1, h2⟩ := tokens_cons_cons_not_ws c d ds hc hd
          rw [h2] at ht
          rcases List.mem_cons.mp ht with ht | ht
          · subst ht; simp
          · exact ih t (by rw [h1]; exact List.mem_cons_of_mem u ht)

theorem trim_getLast?_visible (s : Str) (d : Char) (h : (trim s).getLast? = some d) :
    isWhiteSpace d = false := by
  unfold trim at h
  rw [List.getLast?_reverse] at h
  have := List.head?_dropWhile_not isWhiteSpace (s.dropWhile isWhiteSpace).reverse
  rw [h] at this
  simpa using this

theorem truncateLastSentence_initial (c : Char) (t : Str) (hc : isWhiteSpace c = false) :
    truncateLastSentence (c :: t) <+: c :: t := by
  unfold truncateLastSentence
  cases lastSentenceRe.exec (c :: t) with
  | none => exact List.prefix_refl _
  | some r =>
    obtain ⟨i, n⟩ := r
    show trim ((c :: t).take (i + n)) <+: c :: t
    have h1 := trim_initial ((c :: t).take (i + n))
    have h2 : ((c :: t).take (i + n)).dropWhile isWhiteSpace = (c :: t).take (i + n) := by
      cases i + n with
      | zero => rfl
      | succ m => rw [List.take_succ_cons, List.dropWhile_cons_of_neg (by simp [hc])]
    rw [h2] at h1
    exact h1.trans ( List.take_prefix _ _)

theorem truncateLastSentence_getLast?_visible (s : Str) (d e : Char)
    (hs : s.getLast? = some d) (hd : isWhiteSpace d = false)
    (he : (truncateLastSentence s).getLast? = some e) : isWhiteSpace e = false := by
  unfold truncateLastSentence at he
  cases hx : lastSentenceRe.exec s with
  | none =>
    rw [hx] at he
    simp only at he
    rw [hs] at he
    simp only [Option.some.injEq] at he
    rw [← he]; exact hd
  | some r =>
    obtain ⟨i, n⟩ := r
    rw [hx] at he
    exact trim_getLast?_visible _ e he

/-- The pieces of `split(' ')` of a non-empty post-processed text are its tokens. -/
theorem splitStr_postProcess (raw : Str) (wordCount : Option Nat)
    (hne : postProcess none raw wordCount ≠ []) :
    splitStr " ".toList (postProcess none raw wordCount) =
      tokens (postProcess none raw wordCount) := by
  have hs : hasSentence (extractSam raw) = true := by
    cases h : hasSentence (extractSam raw) with
    | true => rfl
    | false => exact absurd (postProcess_eq_nil_of_not_hasSentence raw wordCount h) hne
  obtain ⟨c, t, d, hE, hc, hl, hd⟩ := ensureCompleteResponse_of_hasSentence _ hs
  have hsplit := split_ensureCompleteResponse _ hs
  have hmem : ∀ p ∈ (tokens (ensureCompleteResponse (extractSam raw))).take (wordLimit wordCount),
      (∀ a ∈ p, isWhiteSpace a = false) ∧ p ≠ [] := by
    intro p hp
    have hp2 := List.mem_of_mem_take hp
    refine ⟨?_, tokens_ne_nil _ p hp2⟩
    rw [← hsplit, whiteSpaceRe_split_eq] at hp2
    exact splitAux_noWhiteSpace _ [] (by simp) p hp2
  have hL : limitToWordCount (ensureCompleteResponse (extractSam raw)) (wordLimit wordCount) =
      join " ".toList ((tokens (ensureCompleteResponse (extractSam raw))).take
        (wordLimit wordCount)) := by
    show join " ".toList ((whiteSpaceRe.split _).take _) = _
    rw [hsplit]
  have hss : singleSpaced (limitToWordCount (ensureCompleteResponse (extractSam raw))
      (wordLimit wordCount)) = true := by
    rw [hL]
    exact singleSpaced_join _ (fun p hp => (hmem p hp).1) (fun p hp => (hmem p hp).2)
  obtain ⟨u, hu⟩ := limitToWordCount_cons c t (wordLimit wordCount) hc (wordLimit_pos wordCount)
  rw [← hE] at hu
  have hLlast : ∃ x, (limitToWordCount (ensureCompleteResponse (extractSam raw))
      (wordLimit wordCount)).getLast? = some x ∧ isWhiteSpace x = false := by
    rw [hL]
    cases hlp : ((tokens (ensureCompleteResponse (extractSam raw))).take
        (wordLimit wordCount)).getLast? with
    | none =>
      have h0 := List.getLast?_eq_none_iff.mp hlp
      rw [hL, h0] at hu
      simp [join] at hu
    | some p =>
      have hp := List.mem_of_getLast?_eq_some hlp
      cases hpl : p.getLast? with
      | none => exact absurd (List.getLast?_eq_none_iff.mp hpl) (hmem p hp).2
      | some x =>
        exact ⟨x, join_getLast? _ _ x ⟨p, hlp, hpl⟩,
          (hmem p hp).1 x (List.mem_of_getLast?_eq_some hpl)⟩
  obtain ⟨x, hx, hxv⟩ := hLlast
  have hout : postProcess none raw wordCount = truncateLastSentence
      (limitToWordCount (ensureCompleteResponse (extractSam raw)) (wordLimit wordCount)) := rfl
  rw [hout] at hne ⊢
  have hpre := truncateLastSentence_initial c u hc
  obtain ⟨v, hv⟩ := truncateLastSentence_cons c u hc
  rw [hu] at hss hx ⊢
  have hlast : ∃ e, (truncateLastSentence (c :: u)).getLast? = some e ∧
      isWhiteSpace e = false := by
    cases hg : (truncateLastSentence (c :: u)).getLast? with
    | none =>
      have h0 := List.getLast?_eq_none_iff.mp hg
      rw [hv] at h0; simp at h0
    | some e => exact ⟨e, rfl, truncateLastSentence_getLast?_visible _ x e hx hxv hg⟩
  have := splitStrAux_eq_tokens (truncateLastSentence (c :: u)) [] (by simp)
    ⟨c, by simp [hv], hc⟩ (by simpa using hlast)
    (singleSpaced_of_initial _ _ hpre hss)
  simpa [splitStr] using this

/-- On a non-empty post-processed text the flag `isComplete` is what the specification
says: it is `true` exactly when the text has at least `wordCount` tokens. -/
theorem isComplete_iff_of_ne_nil (raw : Str) (wordCount : Nat)
    (hne : postProcess none raw (some wordCount) ≠ []) :
    isComplete (postProcess none raw (some wordCount)) (some wordCount) = true ↔
      wordCount ≤ tokenCount (postProcess none raw (some wordCount)) := by
  unfold isComplete tokenCount
  rw [splitStr_postProcess raw (some wordCount) hne]
  simp

/-! ## The claims about the post-processing steps -/

/-- C1 (as amended): for every raw text and every word count, the text produced by the
post-processing steps (no previous response prepended) is non-empty exactly when what remains
after the `"Sam:"` extraction contains a complete sentence, that is a character other than
`.`, `!`, `?` directly followed by one of them. -/
theorem postProcess_ne_nil_iff (raw : Str) (wordCount : Option Nat) :
    postProcess none raw wordCount ≠ [] ↔ hasSentence (extractSam raw) = true := by
  constructor
  · intro h
    cases hs : hasSentence (extractSam raw) with
    | true => rfl
    | false => exact absurd (postProcess_eq_nil_of_not_hasSentence raw wordCount hs) h
  · intro hs
    obtain ⟨c, v, hv, _⟩ := postProcess_cons_of_hasSentence raw wordCount hs
    rw [hv]
    simp

/-- C1 (counterexample): the non-empty raw text `"hello"` with word count 10 is post-processed
to the empty text. -/
theorem postProcess_hello_empty :
    "hello".toList ≠ [] ∧ 0 < 10 ∧ postProcess none "hello".toList (some 10) = [] := by
  decide

/-- When what remains after the `"Sam:"` extraction contains a complete sentence and the
positive word count is at least the number of whitespace-delimited tokens of the
sentence-completed text, the word limit cuts nothing and the post-processed text ends with
`.`, `!` or `?`. -/
theorem postProcess_endsWithTerminator_of_fit (raw : Str) (wordCount : Nat)
    (hs : hasSentence (extractSam raw) = true) (hpos : 0 < wordCount)
    (hfit : tokenCount (ensureCompleteResponse (extractSam raw)) ≤ wordCount) :
    endsWithTerminator (postProcess none raw (some wordCount)) = true := by
  obtain ⟨c, t, d, _, _, hl, hd⟩ := ensureCompleteResponse_of_hasSentence _ hs
  have hlimit : wordLimit (some wordCount) = wordCount := by
    cases wordCount with
    | zero => omega
    | succ n => rfl
  have hlen : (whiteSpaceRe.split (ensureCompleteResponse (extractSam raw))).length
      ≤ wordLimit (some wordCount) := by
    rw [split_ensureCompleteResponse _ hs, hlimit]
    exact hfit
  have hL := limitToWordCount_getLast? _ _ d (not_isWhiteSpace_of_isTerminator hd) hl hlen
  exact truncateLastSentence_getLast? _ d hL hd

/-- C2 (as amended): when the word-limited text (the text after lines 62-72) is matched by
the last-sentence pattern of line 80, or already ends with `.`, `!` or `?`, the post-processed
text ends with `.`, `!` or `?`: the cut of lines 80-83 ends the text at the sentence boundary
the pattern finds.  The pattern matches where a character other than `.`, `!`, `?` is
followed by a single `.`, `!` or `?`, then by white space or the end of the text, with no
`.`, `!`, `?` after that on the line. -/
theorem postProcess_endsWithTerminator (raw : Str) (wordCount : Option Nat)
    (h : lastSentenceRe.test (limitedText raw wordCount) = true ∨
      endsWithTerminator (limitedText raw wordCount) = true) :
    endsWithTerminator (postProcess none raw wordCount) = true := by
  show endsWithTerminator (truncateLastSentence (limitedText raw wordCount)) = true
  exact (endsWithTerminator_truncateLastSentence _).mpr h

/-- C2 (witness): `"One two. Three four five."` with word count 3.  The word limit leaves
`"One two. Three"`, which ends mid-sentence; the pattern matches it and the cut gives
`"One two."`. -/
theorem postProcess_endsWithTerminator_witness :
    (lastSentenceRe.test (limitedText "One two. Three four five.".toList (some 3)) = true ∨
      endsWithTerminator (limitedText "One two. Three four five.".toList (some 3)) = true) ∧
    limitedText "One two. Three four five.".toList (some 3) = "One two. Three".toList ∧
    postProcess none "One two. Three four five.".toList (some 3) = "One two.".toList ∧
    endsWithTerminator (postProcess none "One two. Three four five.".toList (some 3)) = true :=
  ⟨Or.inl (by decide), by decide, by decide,
    postProcess_endsWithTerminator _ _ (Or.inl (by decide))⟩

/-- The pattern of line 80 takes a single terminator where `ensureCompleteResponse` takes a run
of them: on `"Hi!! Wow great."` with word count 2 the word limit leaves `"Hi!! Wow"`, the
pattern finds no boundary in it and the text is returned ending in a fragment. -/
theorem postProcess_terminator_run_kept :
    limitedText "Hi!! Wow great.".toList (some 2) = "Hi!! Wow".toList ∧
    lastSentenceRe.test "Hi!! Wow".toList = false ∧
    postProcess none "Hi!! Wow great.".toList (some 2) = "Hi!! Wow".toList := by
  decide

/-- C2 (counterexample): `"Hello world."` contains a complete sentence, yet with word count 1
the post-processed text is `"Hello"`, which ends mid-sentence. -/
theorem postProcess_hello_world_cut :
    hasSentence "Hello world.".toList = true ∧ 0 < 1 ∧
    postProcess none "Hello world.".toList (some 1) = "Hello".toList ∧
    endsWithTerminator (postProcess none "Hello world.".toList (some 1)) = false := by
  decide

/-- C3 (as amended): the post-processed text has at most `wordCount` whitespace-delimited
tokens when `wordCount` is positive, and at most 50 when `wordCount` is 0. -/
theorem tokenCount_postProcess_le (raw : Str) (wordCount : Nat) :
    tokenCount (postProcess none raw (some wordCount)) ≤
      if wordCount = 0 then 50 else wordCount := by
  have h1 := tokenCount_truncateLastSentence_le
    (limitToWordCount (ensureCompleteResponse (extractSam raw)) (wordLimit (some wordCount)))
  have h2 := tokenCount_limitToWordCount_le (ensureCompleteResponse (extractSam raw))
    (wordLimit (some wordCount))
  have h3 : wordLimit (some wordCount) = if wordCount = 0 then 50 else wordCount := by
    cases wordCount with
    | zero => rfl
    | succ n => simp [wordLimit]
  rw [← h3]
  exact Nat.le_trans h1 h2

/-- C3 (counterexample): with word count 0 the raw text `"Hi there."` is returned whole: two
tokens, more than the word count. -/
theorem tokenCount_postProcess_zero :
    tokenCount (postProcess none "Hi there.".toList (some 0)) = 2 ∧
    ¬ tokenCount (postProcess none "Hi there.".toList (some 0)) ≤ 0 := by
  decide

/-- C4 (the code at the failing input): the raw text `"hello"` with word count 1 is
post-processed to the empty text, which has no token, and `isComplete` is `true`. -/
theorem isComplete_empty_text :
    postProcess none "hello".toList (some 1) = [] ∧
    tokenCount (postProcess none "hello".toList (some 1)) = 0 ∧
    ¬ tokenCount (postProcess none "hello".toList (some 1)) ≥ 1 ∧
    isComplete (postProcess none "hello".toList (some 1)) (some 1) = true := by
  decide

/-- C5: the raw text `"Sam: Great idea! Try posting at 9am. It boosts"` with word count 10
yields exactly `"Great idea! Try posting at 9am."`, and `isComplete` is `false`. -/
theorem postProcess_scenario :
    postProcess none "Sam: Great idea! Try posting at 9am. It boosts".toList (some 10) =
      "Great idea! Try posting at 9am.".toList ∧
    isComplete
      (postProcess none "Sam: Great idea! Try posting at 9am. It boosts".toList (some 10))
      (some 10) = false := by
  decide

/-! ## The claims about `verifyToken` -/

theorem splitStrAux_without_separator (sep s cur : Str) (h : ¬ sep <:+: s) :
    splitStrAux sep s cur 0 = [cur.reverse ++ s] := by
  induction s generalizing cur with
  | nil => simp [splitStrAux]
  | cons c cs ih =>
    have hpre : sep.isPrefixOf (c :: cs) = false := by
      cases hp : sep.isPrefixOf (c :: cs) with
      | false => rfl
      | true => exact absurd (List.isPrefixOf_iff_prefix.mp hp).isInfix h
    have hcs : ¬ sep <:+: cs := fun hi => h (hi.trans (List.suffix_cons c cs).isInfix)
    rw [splitStrAux]
    simp only [hpre, Bool.false_eq_true, if_false]
    rw [ih (c :: cur) hcs]
    simp

/-- A header in which `"Bearer "` does not occur yields no token. -/
theorem extractToken_without_bearer (header : Str) (h : ¬ "Bearer ".toList <:+: header) :
    extractToken (some header) = none := by
  show (splitStrAux "Bearer ".toList header [] 0).get? 1 = none
  rw [splitStrAux_without_separator _ _ _ h]
  rfl

/-- C6: `verifyToken` calls `next` only when a token was extracted from the Authorization
header and `verifyIdToken` accepted it (the decoded identity is then left in `req.user` and no
response is sent); in every other case it responds 401 and does not call `next`. -/
theorem verifyToken_next_or_401 (authorization : Option Str)
    (verifyIdToken : Str → Option DecodedToken) :
    (∃ c cs decoded, extractToken authorization = some (c :: cs) ∧
        verifyIdToken (c :: cs) = some decoded ∧
        verifyToken authorization verifyIdToken = ⟨[c :: cs], some decoded, true, none⟩) ∨
    ((¬ ∃ token decoded, token ≠ [] ∧ extractToken authorization = some token ∧
        verifyIdToken token = some decoded) ∧
      (verifyToken authorization verifyIdToken).nextCalled = false ∧
      (verifyToken authorization verifyIdToken).response = some (401, "Unauthorized")) := by
  cases ht : extractToken authorization with
  | none =>
    right
    refine ⟨?_, by simp [verifyToken, ht], by simp [verifyToken, ht]⟩
    rintro ⟨token, decoded, _, h1, _⟩
    simp at h1
  | some token =>
    cases token with
    | nil =>
      right
      refine ⟨?_, by simp [verifyToken, ht], by simp [verifyToken, ht]⟩
      rintro ⟨token, decoded, hne, h1, _⟩
      simp only [Option.some.injEq] at h1
      exact hne h1.symm
    | cons c cs =>
      cases hv : verifyIdToken (c :: cs) with
      | some decoded =>
        left
        exact ⟨c, cs, decoded, rfl, hv, by simp [verifyToken, ht, hv]⟩
      | none =>
        right
        refine ⟨?_, by simp [verifyToken, ht, hv], by simp [verifyToken, ht, hv]⟩
        rintro ⟨token, decoded, _, h1, h2⟩
        simp only [Option.some.injEq] at h1
        subst h1
        rw [hv] at h2
        simp at h2

/-- C7 (as amended): when the Authorization header is absent, does not contain `"Bearer "` at
all, or is `"Bearer "` with nothing after it, `verifyToken` responds 401 without calling
`verifyIdToken` (and without calling `next`). -/
theorem verifyToken_rejects_without_token (authorization : Option Str)
    (verifyIdToken : Str → Option DecodedToken)
    (h : authorization = none ∨ ∃ header, authorization = some header ∧
      (¬ "Bearer ".toList <:+: header ∨ header = "Bearer ".toList)) :
    verifyToken authorization verifyIdToken = ⟨[], none, false, some (401, "Unauthorized")⟩ := by
  rcases h with rfl | ⟨header, rfl, h | rfl⟩
  · rfl
  · simp [verifyToken, extractToken_without_bearer header h]
  · rfl

/-- C7 (witness): a `Basic` header, in which `"Bearer "` does not occur. -/
theorem verifyToken_rejects_without_token_witness :
    (some "Basic dXNlcg==".toList = none ∨ ∃ header, some "Basic dXNlcg==".toList = some header ∧
      (¬ "Bearer ".toList <:+: header ∨ header = "Bearer ".toList)) ∧
    verifyToken (some "Basic dXNlcg==".toList) (fun _ => some ⟨"u"⟩) =
      ⟨[], none, false, some (401, "Unauthorized")⟩ :=
  ⟨Or.inr ⟨_, rfl, Or.inl (by decide)⟩,
    verifyToken_rejects_without_token _ _ (Or.inr ⟨_, rfl, Or.inl (by decide)⟩)⟩

/-- C7 (counterexample): the header `"Basic Bearer abc"` is malformed, it does not start with
`"Bearer "`, yet `verifyToken` hands the token `"abc"` to `verifyIdToken`. -/
theorem verifyToken_malformed_verified :
    wellFormedBearer "Basic Bearer abc".toList = false ∧
    (verifyToken (some "Basic Bearer abc".toList) (fun _ => none)).verifyCalls =
      ["abc".toList] := by
  decide

/-! ## The claims about the handlers -/

/-- C8: when the upstream generation call of a `/generate-text` or `/generate-image` request
fails, the handler responds with status 500, with error `'Failed to generate text.'` for a
text turn (`'Failed to generate image.'` for an image turn) and the upstream error message as
details, and the conversation store is left as it was. -/
theorem upstream_failure_response (scope : Scope) (w : World) (user : DecodedToken)
    (turn : Turn) (st : Store) (e : UpstreamError) (h : turn.upstreamError w = some e) :
    runTurn scope w user turn st = (⟨500, .error turn.failureLabel e.message⟩, st) ∧
    (∀ req, turn = .text req →
      (runTurn scope w user turn st).1.body = .error "Failed to generate text." e.message) := by
  cases turn with
  | text req =>
    simp only [Turn.upstreamError] at h
    cases hg : w.generateText (textInputs req) with
    | ok raw => rw [hg] at h; simp at h
    | error e2 =>
      rw [hg] at h
      simp only [Option.some.injEq] at h
      subst h
      have h1 : runTurn scope w user (.text req) st =
          (⟨500, .error "Failed to generate text." e2.message⟩, st) := by
        simp [runTurn, generateTextHandler, generateTextTry, hg]
      exact ⟨h1, fun _ _ => by rw [h1]⟩
  | image req =>
    simp only [Turn.upstreamError] at h
    cases hg : w.generateImage (imageInputs req) with
    | ok raw => rw [hg] at h; simp at h
    | error e2 =>
      rw [hg] at h
      simp only [Option.some.injEq] at h
      subst h
      have h1 : runTurn scope w user (.image req) st =
          (⟨500, .error "Failed to generate image." e2.message⟩, st) := by
        simp [runTurn, generateImageHandler, generateImageTry, hg]
      exact ⟨h1, fun _ h => by cases h⟩

/-- C8 (witness): a text turn whose upstream call fails with HTTP 503, on an empty store. -/
theorem upstream_failure_response_witness :
    (Turn.text ⟨"You are Sam.".toList, "Post idea?".toList, "Twitter", none, some 10⟩).upstreamError
        stormWorld = some ⟨"Request failed with status code 503", some 503⟩ ∧
    runTurn appScope stormWorld ⟨"user-1"⟩
        (.text ⟨"You are Sam.".toList, "Post idea?".toList, "Twitter", none, some 10⟩) [] =
      (⟨500, .error "Failed to generate text." "Request failed with status code 503"⟩, []) :=
  ⟨rfl, (upstream_failure_response appScope stormWorld ⟨"user-1"⟩
    (.text ⟨"You are Sam.".toList, "Post idea?".toList, "Twitter", none, some 10⟩) []
    ⟨"Request failed with status code 503", some 503⟩ rfl).1⟩

/-- In the scope of src/app.js the `/generate-text` handler answers 500 whatever the upstream
and the store do, and leaves the store as it was. -/
theorem generateTextHandler_appScope (w : World) (user : DecodedToken) (req : TextRequest)
    (st : Store) :
    (generateTextHandler appScope w user req st).1.status = 500 ∧
    (generateTextHandler appScope w user req st).2 = st := by
  unfold generateTextHandler generateTextTry
  cases w.generateText (textInputs req) <;> simp [appScope]

/-- C9 (the code at the failing input): the upstream returns generated text and the store
works, yet the `/generate-text` handler answers 500 `'Failed to generate text.'`, because
reading the undeclared `previousResponse` throws; nothing is stored. -/
theorem generateText_success_path_500 :
    calmWorld.generateText
        (textInputs ⟨"You are Sam.".toList, "Post idea?".toList, "Twitter", none, some 10⟩) =
      .ok "Sam: Hi there. More soon".toList ∧
    calmWorld.storeError = none ∧
    generateTextHandler appScope calmWorld ⟨"user-1"⟩
        ⟨"You are Sam.".toList, "Post idea?".toList, "Twitter", none, some 10⟩ [] =
      (⟨500, .error "Failed to generate text." "previousResponse is not defined"⟩, []) :=
  ⟨rfl, rfl, rfl⟩

theorem persistTurn_ok (w : World) (user : DecodedToken) (platform : String)
    (conversationId : Option String) (userMsg assistantMsg : Message) (st st1 : Store)
    (id : String) (h : persistTurn w user platform conversationId userMsg assistantMsg st =
      .ok (id, st1)) :
    match truthyId conversationId with
    | none =>
      ∃ conv, st.get w.autoId = none ∧ st1 = st ++ [(w.autoId, conv)] ∧
        conv.messages = [userMsg, assistantMsg] ∧ id = w.autoId
    | some cid => st1.map Prod.fst = st.map Prod.fst ∧ id = cid := by
  unfold persistTurn at h
  cases hse : w.storeError with
  | some e => simp [hse] at h
  | none =>
    rw [hse] at h
    cases ht : truthyId conversationId with
    | none =>
      simp only [ht, Store.add] at h ⊢
      cases hg : st.get w.autoId with
      | some _ => simp [hg] at h
      | none =>
        simp only [hg, Except.ok.injEq, Prod.mk.injEq] at h
        exact ⟨_, rfl, h.2.symm, rfl, h.1.symm⟩
    | some cid =>
      simp only [ht, Store.update] at h ⊢
      cases hg : st.get cid with
      | none => simp [hg] at h
      | some conv =>
        simp only [hg, Except.ok.injEq, Prod.mk.injEq] at h
        obtain ⟨rfl, rfl⟩ := h
        refine ⟨?_, rfl⟩
        rw [List.map_map]
        apply List.map_congr_left
        intro d _
        simp only [Function.comp]
        split <;> rfl

/-- C10: for every generation turn that completes successfully (status 200): when the request
carries no conversation id (absent or empty), exactly one conversation is added to the store,
under an id no conversation had before, its messages are exactly the user message (with the
prompt) followed by the assistant message (with the generated content), and the response
carries that new id; when the request carries a conversation id, the set of conversations
stays the same and the response carries the supplied id. -/
theorem successful_turn_conversation (scope : Scope) (w : World) (user : DecodedToken)
    (turn : Turn) (st : Store) (h : (runTurn scope w user turn st).1.status = 200) :
    match truthyId turn.conversationId with
    | none =>
      ∃ conv userMsg assistantMsg, st.get w.autoId = none ∧
        (runTurn scope w user turn st).2 = st ++ [(w.autoId, conv)] ∧
        conv.messages = [userMsg, assistantMsg] ∧
        userMsg.sender = "user" ∧ userMsg.text = turn.prompt scope ∧
        assistantMsg.sender = "assistant" ∧
        assistantMsg.text = (runTurn scope w user turn st).1.body.generatedText ∧
        assistantMsg.imageURL = (runTurn scope w user turn st).1.body.generatedImage ∧
        (runTurn scope w user turn st).1.body.conversationId = some w.autoId
    | some id =>
      ((runTurn scope w user turn st).2).map Prod.fst = st.map Prod.fst ∧
        (runTurn scope w user turn st).1.body.conversationId = some id := by
  cases turn with
  | text req =>
    simp only [runTurn, generateTextHandler, generateTextTry] at h ⊢
    cases hg : w.generateText (textInputs req) with
    | error e => simp [hg] at h
    | ok raw =>
      simp only [hg] at h ⊢
      cases hp : scope.previousResponse with
      | undeclared => simp [hp] at h
      | bound prev =>
        simp only [hp] at h ⊢
        cases hq : scope.prompt with
        | undeclared => simp [hq] at h
        | bound prompt =>
          simp only [hq] at h ⊢
          cases hpt : persistTurn w user req.platform req.conversationId
              ⟨w.uuid1, "user", prompt, none, w.now⟩
              ⟨w.uuid2, "assistant", some (postProcess prev raw req.wordCount), none, w.now⟩
              st with
          | error e => simp [hpt] at h
          | ok r =>
            obtain ⟨id, st1⟩ := r
            have hk := persistTurn_ok _ _ _ _ _ _ _ _ _ hpt
            simp only [hpt, Turn.conversationId, Turn.prompt, hq] at hk ⊢
            cases ht : truthyId req.conversationId with
            | none =>
              simp only [ht] at hk ⊢
              obtain ⟨conv, h1, h2, h3, h4⟩ := hk
              exact ⟨conv, _, _, h1, h2, h3, rfl, rfl, rfl, rfl, rfl, by simp [Body.conversationId, h4]⟩
            | some cid =>
              simp only [ht] at hk ⊢
              exact ⟨hk.1, by simp [Body.conversationId, hk.2]⟩
  | image req =>
    simp only [runTurn, generateImageHandler, generateImageTry] at h ⊢
    cases hg : w.generateImage (imageInputs req) with
    | error e => simp [hg] at h
    | ok data =>
      simp only [hg] at h ⊢
      cases hpt : persistTurn w user req.platform req.conversationId
          ⟨w.uuid1, "user", some req.prompt, none, w.now⟩
          ⟨w.uuid2, "assistant", none, some (imageUrl (w.base64 data)), w.now⟩ st with
      | error e => simp [hpt] at h
      | ok r =>
        obtain ⟨id, st1⟩ := r
        have hk := persistTurn_ok _ _ _ _ _ _ _ _ _ hpt
        simp only [hpt, Turn.conversationId, Turn.prompt] at hk ⊢
        cases ht : truthyId req.conversationId with
        | none =>
          simp only [ht] at hk ⊢
          obtain ⟨conv, h1, h2, h3, h4⟩ := hk
          exact ⟨conv, _, _, h1, h2, h3, rfl, rfl, rfl, rfl, rfl, by simp [Body.conversationId, h4]⟩
        | some cid =>
          simp only [ht] at hk ⊢
          exact ⟨hk.1, by simp [Body.conversationId, hk.2]⟩

/-- C10 (witness): an image turn without conversation id, on an empty store. -/
theorem successful_turn_conversation_witness :
    (runTurn appScope calmWorld ⟨"user-1"⟩
      (.image ⟨"a sunrise".toList, "Instagram", none⟩) []).1.status = 200 ∧
    ∃ conv userMsg assistantMsg, Store.get [] calmWorld.autoId = none ∧
      (runTurn appScope calmWorld ⟨"user-1"⟩
        (.image ⟨"a sunrise".toList, "Instagram", none⟩) []).2 = [] ++ [(calmWorld.autoId, conv)] ∧
      conv.messages = [userMsg, assistantMsg] ∧
      userMsg.sender = "user" ∧ userMsg.text = some "a sunrise".toList ∧
      assistantMsg.sender = "assistant" ∧
      assistantMsg.text = none ∧
      assistantMsg.imageURL = some "data:image/jpeg;base64,/9g=".toList ∧
      (runTurn appScope calmWorld ⟨"user-1"⟩
        (.image ⟨"a sunrise".toList, "Instagram", none⟩) []).1.body.conversationId =
        some "conv-1" :=
  ⟨rfl, successful_turn_conversation appScope calmWorld ⟨"user-1"⟩
    (.image ⟨"a sunrise".toList, "Instagram", none⟩) [] rfl⟩

/-! ## The claim about `/add-message` -/

/-- C11: for every `/add-message` request whose store read succeeds, the response is 404
exactly when the conversation id is absent from the store, and then the response is
`'Conversation not found'` and the store is unchanged (no message appended, `lastUpdated`
not refreshed). -/
theorem addMessage_404_iff (w : AddMessageWorld) (req : AddMessageRequest) (st : Store)
    (h : w.getError = none) :
    ((addMessageHandler w req st).1.status = 404 ↔ st.get req.conversationId = none) ∧
    (st.get req.conversationId = none →
      addMessageHandler w req st = (⟨404, .error "Conversation not found" none⟩, st)) := by
  unfold addMessageHandler
  rw [h]
  cases hg : st.get req.conversationId with
  | none => simp
  | some conv =>
    simp only [reduceCtorEq, iff_false, false_implies, and_true]
    cases req.message with
    | none => simp
    | some message =>
      cases w.updateError with
      | some e => simp
      | none =>
        simp only
        split <;> simp

/-- C11 (witness): a request for the id `"conv-2"`, which the store does not hold. -/
theorem addMessage_404_iff_witness :
    addMessageWorld.getError = none ∧
    Store.get oneConversation "conv-2" = none ∧
    addMessageHandler addMessageWorld ⟨"conv-2", some ⟨"user", some "hi".toList, none⟩⟩
        oneConversation =
      (⟨404, .error "Conversation not found" none⟩, oneConversation) :=
  ⟨rfl, by decide,
    (addMessage_404_iff addMessageWorld ⟨"conv-2", some ⟨"user", some "hi".toList, none⟩⟩
      oneConversation rfl).2 (by decide)⟩

/-! ## The claims about `limitToWordCount` and `ensureCompleteResponse` -/

/-- A text that trimming leaves alone is empty or starts and ends with visible characters. -/
theorem visible_ends_of_trim_eq (c : Char) (t : Str) (h : trim (c :: t) = c :: t) :
    isWhiteSpace c = false ∧ ∃ d, (c :: t).getLast? = some d ∧ isWhiteSpace d = false := by
  refine ⟨trim_head _ c t h, ?_⟩
  cases hl : (c :: t).getLast? with
  | none => simp at hl
  | some d =>
    refine ⟨d, rfl, ?_⟩
    apply trim_getLast?_visible (c :: t) d
    rw [h]; exact hl

theorem take_min_length (l : List Str) (limit : Nat) :
    l.take (min limit l.length) = l.take limit := by
  rcases Nat.le_total limit l.length with h | h
  · rw [Nat.min_eq_left h]
  · rw [Nat.min_eq_right h, List.take_of_length_le h, List.take_of_length_le (Nat.le_refl _)]

/-- C12 (as amended): for every text and limit the result of `limitToWordCount` has at most
`limit` whitespace-delimited tokens; and for a text without leading or trailing white space
the result is the first `min(limit, n)` of the text's `n` tokens joined with single spaces. -/
theorem limitToWordCount_tokens (text : Str) (limit : Nat) :
    tokenCount (limitToWordCount text limit) ≤ limit ∧
    (trim text = text →
      limitToWordCount text limit =
        join " ".toList ((tokens text).take (min limit (tokens text).length))) := by
  refine ⟨tokenCount_limitToWordCount_le text limit, fun h => ?_⟩
  rw [take_min_length]
  cases text with
  | nil =>
    rw [limitToWordCount_nil]
    simp [tokens, join]
  | cons c t =>
    obtain ⟨hc, d, hd, hdv⟩ := visible_ends_of_trim_eq c t h
    show join " ".toList ((whiteSpaceRe.split (c :: t)).take limit) = _
    rw [whiteSpaceRe_split_eq]
    have := splitAux_eq_tokens (c :: t) [] (by simp) ⟨c, by simp, hc⟩ ⟨d, by simpa using hd, hdv⟩
    rw [this]
    simp

/-- C12 (witness): the text `"post at nine sharp"` with limit 2. -/
theorem limitToWordCount_tokens_witness :
    trim "post at nine sharp".toList = "post at nine sharp".toList ∧
    limitToWordCount "post at nine sharp".toList 2 = "post at".toList :=
  ⟨by decide, (limitToWordCount_tokens "post at nine sharp".toList 2).2 (by decide)⟩

/-- C12 (counterexample): the text `" a b"` has the tokens `a` and `b`; with limit 1 the code
returns the empty text and not `"a"`, the first token. -/
theorem limitToWordCount_leading_space :
    tokens " a b".toList = ["a".toList, "b".toList] ∧
    join " ".toList ((tokens " a b".toList).take (min 1 (tokens " a b".toList).length)) =
      "a".toList ∧
    limitToWordCount " a b".toList 1 = [] := by
  decide

theorem dropWhile_append_of_all_false (p : Char → Bool) (a b : Str)
    (hb : ∀ x ∈ b, p x = false) : (a ++ b).dropWhile p = a.dropWhile p ++ b := by
  induction a with
  | nil =>
    cases b with
    | nil => rfl
    | cons x b =>
      have := hb x (List.mem_cons_self x b)
      simp [List.dropWhile_cons, this]
  | cons c a ih =>
    by_cases hc : p c = true
    · simp only [List.cons_append, List.dropWhile_cons_of_pos hc, ih]
    · simp only [List.cons_append, List.dropWhile_cons_of_neg hc]

theorem dropWhile_append_of_all_true (p : Char → Bool) (a b : Str)
    (ha : a.dropWhile p = []) (hb : ∀ x ∈ b, p x = true) : (a ++ b).dropWhile p = [] := by
  rw [List.dropWhile_eq_nil_iff] at ha ⊢
  intro x hx
  rcases List.mem_append.mp hx with h | h
  · exact ha x h
  · exact hb x h

/-- A fragment without terminators after a text does not change the match of
`/[^.!?]+[.!?]+/` anchored at the start of the text. -/
theorem sentenceRe_matchK_append (s t : Str) (ht : ∀ x ∈ t, isTerminator x = false) :
    sentenceRe.matchK (s ++ t) some = (sentenceRe.matchK s some).map (fun r => r ++ t) := by
  have hnt : ∀ x ∈ t, notTerminator x = true := by
    intro x hx; simp [notTerminator, ht x hx]
  cases s with
  | nil =>
    rw [List.nil_append, sentenceRe_matchK_nil]
    cases t with
    | nil => rfl
    | cons c t =>
      rw [sentenceRe_matchK]
      have hc := hnt c (List.mem_cons_self c t)
      have hdw : t.dropWhile notTerminator = [] :=
        List.dropWhile_eq_nil_iff.mpr (fun x hx => hnt x (List.mem_cons_of_mem c hx))
      simp [hc, hdw]
  | cons c cs =>
    rw [List.cons_append, sentenceRe_matchK, sentenceRe_matchK]
    by_cases hc : notTerminator c = true
    · simp only [hc, if_true]
      cases hdw : cs.dropWhile notTerminator with
      | nil =>
        rw [dropWhile_append_of_all_true notTerminator cs t hdw hnt]
        rfl
      | cons d ds =>
        have hd : ¬ notTerminator d = true := by
          have := List.head?_dropWhile_not notTerminator cs
          rw [hdw] at this
          simpa using this
        have h2 : (cs ++ t).dropWhile notTerminator = d :: (ds ++ t) := by
          have hcs : cs = cs.takeWhile notTerminator ++ d :: ds := by
            rw [← hdw, List.takeWhile_append_dropWhile]
          conv_lhs => rw [hcs, List.append_assoc]
          rw [List.dropWhile_append_of_pos (fun a ha => List.mem_takeWhile_imp ha)]
          simp [List.dropWhile_cons_of_neg hd]
        rw [h2]
        by_cases hT : isTerminator d = true
        · simp only [hT, if_true, Option.map_some',
            dropWhile_append_of_all_false isTerminator ds t ht]
        · simp [hT]
    · simp [hc]

theorem length_le_of_sentenceRe_matchK (s r : Str) (h : sentenceRe.matchK s some = some r) :
    r.length ≤ s.length := by
  cases s with
  | nil => simp [sentenceRe_matchK_nil] at h
  | cons c cs =>
    rw [sentenceRe_matchK] at h
    by_cases hc : notTerminator c = true
    · simp only [hc, if_true] at h
      cases hdw : cs.dropWhile notTerminator with
      | nil => simp [hdw] at h
      | cons d ds =>
        rw [hdw] at h
        by_cases hT : isTerminator d = true
        · simp only [hT, if_true, Option.some.injEq] at h
          have h1 : (ds.dropWhile isTerminator).length ≤ ds.length :=
            (List.dropWhile_suffix isTerminator).length_le
          have h2 : (cs.dropWhile notTerminator).length ≤ cs.length :=
            (List.dropWhile_suffix notTerminator).length_le
          rw [hdw] at h2
          simp only [List.length_cons] at h2 ⊢
          rw [← h]
          omega
        · simp [hT] at h
    · simp [hc] at h

theorem sentenceRe_matchAt_append (s t : Str) (ht : ∀ x ∈ t, isTerminator x = false) :
    sentenceRe.matchAt (s ++ t) = sentenceRe.matchAt s := by
  unfold Regex.matchAt
  rw [sentenceRe_matchK_append s t ht]
  cases h : sentenceRe.matchK s some with
  | none => rfl
  | some r =>
    have := length_le_of_sentenceRe_matchK s r h
    simp only [Option.map_some', List.length_append, Option.some.injEq]
    omega

theorem sentenceRe_matchAt_le (s : Str) (n : Nat) (h : sentenceRe.matchAt s = some n) :
    n ≤ s.length := by
  unfold Regex.matchAt at h
  cases hk : sentenceRe.matchK s some with
  | none => simp [hk] at h
  | some r =>
    simp only [hk, Option.map_some', Option.some.injEq] at h
    omega

theorem hasSentence_of_no_terminator (t : Str) (ht : ∀ x ∈ t, isTerminator x = false) :
    hasSentence t = false := by
  induction t with
  | nil => rfl
  | cons a t ih =>
    cases t with
    | nil => rfl
    | cons b t =>
      have hb := ht b (by simp)
      have ih2 := ih (fun x hx => ht x (List.mem_cons_of_mem a hx))
      simp [hasSentence, hb, ih2]

/-- A fragment without terminators after a text does not change the matches of
`/[^.!?]+[.!?]+/g`. -/
theorem sentenceRe_matchAllAux_append (s t : Str) (k : Nat)
    (ht : ∀ x ∈ t, isTerminator x = false) :
    sentenceRe.matchAllAux (s ++ t) k = sentenceRe.matchAllAux s k := by
  induction s generalizing k with
  | nil =>
    rw [List.nil_append, sentenceRe_matchAll_eq_nil t k (hasSentence_of_no_terminator t ht),
      sentenceRe_matchAll_eq_nil [] k rfl]
  | cons c cs ih =>
    cases k with
    | succ k =>
      rw [List.cons_append, Regex.matchAllAux, Regex.matchAllAux]
      exact ih k
    | zero =>
      have hm := sentenceRe_matchAt_append (c :: cs) t ht
      rw [List.cons_append] at hm ⊢
      rw [Regex.matchAllAux, Regex.matchAllAux, hm]
      cases hma : sentenceRe.matchAt (c :: cs) with
      | none => exact ih 0
      | some n =>
        have hn := sentenceRe_matchAt_le _ n hma
        simp only
        rw [ih (n - 1), ← List.cons_append, List.take_append_of_le_length hn]

/-- C13: for every text `s` and every fragment `t` that contains none of `.`, `!`, `?`,
`ensureCompleteResponse (s ++ t) = ensureCompleteResponse s`: the trailing fragment is dropped
and contributes nothing. -/
theorem ensureCompleteResponse_append (s t : Str) (ht : ∀ x ∈ t, isTerminator x = false) :
    ensureCompleteResponse (s ++ t) = ensureCompleteResponse s := by
  unfold ensureCompleteResponse Regex.matchAll
  rw [sentenceRe_matchAllAux_append s t 0 ht]

/-- C13 (witness): the text `"Great idea! Try posting at 9am."` with the fragment
`" It boosts"`. -/
theorem ensureCompleteResponse_append_witness :
    (∀ x ∈ " It boosts".toList, isTerminator x = false) ∧
    ensureCompleteResponse ("Great idea! Try posting at 9am.".toList ++ " It boosts".toList) =
      ensureCompleteResponse "Great idea! Try posting at 9am.".toList :=
  ⟨by decide, ensureCompleteResponse_append _ _ (by decide)⟩

/-! ## The claim about the client-side post-processing -/

/-- A text has at most as many tokens as `split(/\s+/)` gives pieces. -/
theorem tokenCount_le_splitAux_length (s cur : Str) (hcur : ∀ a ∈ cur, isWhiteSpace a = false) :
    tokenCount (cur.reverse ++ s) ≤ (whiteSpaceRe.splitAux s cur 0).length := by
  revert hcur
  refine whiteSpaceRe_splitAux_induction (P := fun s cur =>
    (∀ a ∈ cur, isWhiteSpace a = false) →
      tokenCount (cur.reverse ++ s) ≤ (whiteSpaceRe.splitAux s cur 0).length) ?_ ?_ ?_ s cur
  · intro cur hcur
    rw [whiteSpaceRe_splitAux_nil, List.append_nil]
    unfold tokenCount
    rw [tokens_of_noWhiteSpace _ (fun a ha => hcur a (List.mem_reverse.mp ha))]
    split <;> simp
  · intro c cs cur hc ih hcur
    have ih2 := ih (by simp)
    rw [whiteSpaceRe_splitAux_cons]
    simp only [hc, if_true, List.length_cons]
    unfold tokenCount at ih2 ⊢
    rw [tokens_append_ws _ c cs (fun a ha => hcur a (List.mem_reverse.mp ha)) hc,
      List.length_append]
    simp only [List.reverse_nil, List.nil_append, tokens_dropWhile] at ih2
    have : (if cur.reverse = [] then ([] : List Str) else [cur.reverse]).length ≤ 1 := by
      split <;> simp
    omega
  · intro c cs cur hc ih hcur
    rw [whiteSpaceRe_splitAux_cons]
    simp only [hc, Bool.false_eq_true, if_false]
    have e : (c :: cur).reverse ++ cs = cur.reverse ++ c :: cs := by simp
    rw [← e]
    apply ih
    intro a ha
    rcases List.mem_cons.mp ha with ha | ha
    · subst ha; exact hc
    · exact hcur a ha

/-- A visible character after a text does not change the number of pieces of `split(/\s+/)`. -/
theorem splitAux_length_append_visible (s cur : Str) (v : Char) (hv : isWhiteSpace v = false) :
    (whiteSpaceRe.splitAux (s ++ [v]) cur 0).length = (whiteSpaceRe.splitAux s cur 0).length := by
  refine whiteSpaceRe_splitAux_induction (P := fun s cur =>
    (whiteSpaceRe.splitAux (s ++ [v]) cur 0).length = (whiteSpaceRe.splitAux s cur 0).length)
    ?_ ?_ ?_ s cur
  · intro cur
    rw [List.nil_append, whiteSpaceRe_splitAux_cons]
    simp [hv, whiteSpaceRe_splitAux_nil]
  · intro c cs cur hc ih
    rw [List.cons_append, whiteSpaceRe_splitAux_cons, whiteSpaceRe_splitAux_cons]
    simp only [hc, if_true, List.length_cons]
    rw [dropWhile_append_of_all_false isWhiteSpace cs [v] (by simpa using hv), ih]
  · intro c cs cur hc ih
    rw [List.cons_append, whiteSpaceRe_splitAux_cons, whiteSpaceRe_splitAux_cons]
    simp only [hc, Bool.false_eq_true, if_false]
    exact ih

/-- Visible characters after joined pieces only lengthen the last piece. -/
theorem join_append_visible (ps : List Str) (v : Str) (hne : ps ≠ [])
    (hps : ∀ p ∈ ps, ∀ a ∈ p, isWhiteSpace a = false) (hv : ∀ a ∈ v, isWhiteSpace a = false) :
    ∃ qs : List Str, qs ≠ [] ∧ qs.length = ps.length ∧
      (∀ q ∈ qs, ∀ a ∈ q, isWhiteSpace a = false) ∧
      join " ".toList ps ++ v = join " ".toList qs := by
  induction ps with
  | nil => exact absurd rfl hne
  | cons p rest ih =>
    have hp := hps p (List.mem_cons_self p rest)
    cases rest with
    | nil =>
      refine ⟨[p ++ v], by simp, rfl, ?_, rfl⟩
      intro q hq a ha
      simp only [List.mem_singleton] at hq
      subst hq
      rcases List.mem_append.mp ha with h | h
      · exact hp a h
      · exact hv a h
    | cons q rest =>
      obtain ⟨qs, hqne, hlen, hqs, hj⟩ := ih (by simp)
        (fun r hr => hps r (List.mem_cons_of_mem p hr))
      cases qs with
      | nil => exact absurd rfl hqne
      | cons q2 qs =>
        refine ⟨p :: q2 :: qs, by simp, by simpa using hlen, ?_, ?_⟩
        · intro r hr
          rcases List.mem_cons.mp hr with h | h
          · subst h; exact hp
          · exact hqs r h
        · rw [join_cons_cons, join_cons_cons, List.append_assoc, hj]

/-- Lines 87-95 of `postProcessResponse`, on any text: at most 50 tokens come out. -/
theorem tokenCount_truncated_le (r : Str) :
    tokenCount
      (let words := whiteSpaceRe.split r
       let response :=
         if words.length > 50 then join " ".toList (words.take 50) ++ "...".toList else r
       if endsProperlyRe.test response then response else response ++ ".".toList) ≤ 50 := by
  have hjoin : ∀ (ps : List Str) (x : Str), ps.length ≤ 50 →
      (∀ p ∈ ps, ∀ a ∈ p, isWhiteSpace a = false) → x = join " ".toList ps →
      tokenCount x ≤ 50 := by
    intro ps x hlen hps hx
    rw [hx]
    exact Nat.le_trans (tokenCount_join_le ps hps) hlen
  have hpieces : ∀ p ∈ whiteSpaceRe.split r, ∀ a ∈ p, isWhiteSpace a = false := by
    intro p hp
    rw [whiteSpaceRe_split_eq] at hp
    exact splitAux_noWhiteSpace r [] (by simp) p hp
  simp only
  by_cases hlong : (whiteSpaceRe.split r).length > 50
  · simp only [hlong, if_true]
    have hne : (whiteSpaceRe.split r).take 50 ≠ [] := by
      intro h0
      have := congrArg List.length h0
      simp only [List.length_take, List.length_nil] at this
      omega
    obtain ⟨qs, hqne, hqlen, hqs, hq⟩ := join_append_visible _ "...".toList hne
      (fun p hp => hpieces p (List.mem_of_mem_take hp)) (by decide)
    have hq50 : qs.length ≤ 50 := by
      rw [hqlen, List.length_take]; omega
    rw [hq]
    split
    · exact hjoin qs _ hq50 hqs rfl
    · obtain ⟨qs2, _, hq2len, hq2s, hq2⟩ := join_append_visible qs ".".toList hqne hqs
        (by decide)
      exact hjoin qs2 _ (by omega) hq2s hq2
  · simp only [hlong, if_false]
    have hlen : (whiteSpaceRe.splitAux r [] 0).length ≤ 50 := by
      rw [← whiteSpaceRe_split_eq]; omega
    split
    · have := tokenCount_le_splitAux_length r [] (by simp)
      simp only [List.reverse_nil, List.nil_append] at this
      omega
    · have h1 := tokenCount_le_splitAux_length (r ++ ".".toList) [] (by simp)
      have h2 := splitAux_length_append_visible r [] '.' (by decide)
      simp only [List.reverse_nil, List.nil_append] at h1
      have e : r ++ ".".toList = r ++ ['.'] := rfl
      rw [e] at h1 ⊢
      omega

/-- C14: for every response string and platform, `postProcessResponse` returns a string with
at most 50 whitespace-delimited words. -/
theorem tokenCount_postProcessResponse_le (response : Str) (platform : String) :
    tokenCount (postProcessResponse response platform) ≤ 50 := by
  unfold postProcessResponse
  exact tokenCount_truncated_le _

end Lynq
